import Mathlib

/-!
# A shallow embedding of the `ts-parser-combinators` engine

This file embeds `src/combinators.ts` — a backtracking parser-combinator
engine over indexable streams — and proves the specification's claims about
it.

Modelling decisions, each matched to the source:

* JavaScript runtime values that can flow through a parse are modelled by
  `JSVal`.  Parse failure is the absent values `null`/`undefined`
  (`Parser.is_null` in the source); `JSVal.truthy` models JavaScript
  boolean coercion, which `PositiveLookaheadParser`/`NegativeLookaheadParser`
  use (`if (result)`).
* `IndexableContext` mirrors the class of the same name: the wrapped input,
  `current_index`, the stored `current_element`, the memo `cache`, and the
  cut state.  `cut_point`/`cut_reason` start out absent (`undefined` in JS),
  so they are `Option`s; JS compares `index < undefined` as `false`, which is
  the `none` branch of `reset`.
* `reset` throwing `Error('Can not backtrack beyond current cut point.')`
  (after logging the cut point, the recorded cut reason and the backtrack
  target with `console.error`) is modelled as `Except.error` carrying a
  `CutViolation` with those three observables.
* The memo table `input.cache[this]` indexes a plain JS object with a parser
  *object*; JavaScript coerces the property key with `String(this)`, and no
  parser class overrides `toString`, so every parser coerces to the string
  `"[object Object]"`.  `jsStringKey` reproduces this coercion faithfully.
* Parser graphs are the inductive `Parser`.  Callback arguments are
  modelled at the types the specification assigns them: matchers, guard
  blocks and transformations are pure functions, and the four lifecycle
  hooks (`on_enter`/`on_success`/`on_failure`/`on_exit`) are instrumentation
  that, per the specification, never affects control flow or consumption,
  so their side-effecting callbacks have no effect inside the embedding and
  the nodes keep only the control flow of their `parse` methods.
* The mutually recursive `parse` methods can diverge (e.g. `many` over a
  parser that succeeds without consuming), so the interpreter `parse` is
  indexed by fuel; `PResult.timeout` marks fuel exhaustion, an artifact of
  the embedding with no counterpart in the source.
-/

/-- A JavaScript runtime value, as far as the combinator engine can observe
one: the two absent values, booleans, numbers (the examples only need
integers), strings, and arrays. -/
inductive JSVal : Type where
  | null : JSVal
  | undef : JSVal
  | bool : Bool → JSVal
  | num : Int → JSVal
  | str : String → JSVal
  | arr : List JSVal → JSVal

/-- `Parser.is_null`: `null === obj || undefined === obj` — the engine's
uniform representation of parse failure. -/
def JSVal.is_null : JSVal → Bool
  | .null => true
  | .undef => true
  | _ => false

/-- `Parser.is_not_null`: `!(null === obj || undefined === obj)`. -/
def JSVal.is_not_null (v : JSVal) : Bool := !v.is_null

/-- JavaScript boolean coercion, used by the source's bare `if (result)`
tests in the two lookahead parsers: `null`, `undefined`, `false`, `0` and
`""` are falsy; every array (object) is truthy. -/
def JSVal.truthy : JSVal → Bool
  | .null => false
  | .undef => false
  | .bool b => b
  | .num n => decide (n ≠ 0)
  | .str s => decide (s ≠ "")
  | .arr _ => true

/-- Strict comparison against `null` only (`result !== null`), as written in
`CutParser.parse`; note `undefined !== null` is `true` in JavaScript. -/
def JSVal.eqNull : JSVal → Bool
  | .null => true
  | _ => false

/-- Reading `input[i]` on an array-like JS object: out-of-range reads yield
`undefined`, the end-of-input sentinel. -/
def jsIndex (input : List JSVal) (i : Nat) : JSVal :=
  (input.get? i).getD (.undef)

/-- The observables of the fatal backtrack-past-cut abort: `reset` logs the
active cut point, the recorded cut reason and the offending backtrack
target with `console.error`, then throws. -/
structure CutViolation : Type where
  cut_point : Nat
  cut_reason : Option String
  backtrack_point : Nat

/-- One memo bucket: `cache[starting_index] = [result, ending_index]`. -/
abbrev Bucket : Type := List (Nat × (JSVal × Nat))

/-- The memo table `IndexableContext.cache`, a JS object indexed by the
string coercion of a parser followed by a start position. -/
abbrev Cache : Type := List (String × Bucket)

def Bucket.find : Bucket → Nat → Option (JSVal × Nat)
  | [], _ => none
  | (i, e) :: b, j => if i = j then some e else Bucket.find b j

def Bucket.insert (b : Bucket) (i : Nat) (e : JSVal × Nat) : Bucket :=
  (i, e) :: b

def Cache.find : Cache → String → Option Bucket
  | [], _ => none
  | (k, b) :: c, k' => if k = k' then some b else Cache.find c k'

def Cache.insert : Cache → String → Bucket → Cache
  | [], k, b => [(k, b)]
  | (k', b') :: c, k, b => if k' = k then (k, b) :: c else (k', b') :: Cache.insert c k b

/-- The `IndexableContext` class: the wrapped input, the position, the
stored current element, the memo cache, and the cut state.  `cut_point` and
`cut_reason` are never assigned by the constructor (`undefined` in JS),
hence the `Option`s. -/
structure IndexableContext : Type where
  input : List JSVal
  current_index : Nat
  current_element : JSVal
  cache : Cache
  cut_point : Option Nat
  cut_reason : Option String

namespace IndexableContext

/-- The constructor `new IndexableContext(input)`. -/
def mk0 (input : List JSVal) : IndexableContext :=
  ⟨input, 0, jsIndex input 0, [], none, none⟩

/-- `cut(reason)`: `this.cut_point = this.current_index; this.cut_reason = reason`. -/
def cut (ctx : IndexableContext) (reason : String) : IndexableContext :=
  { ctx with cut_point := some ctx.current_index, cut_reason := some reason }

/-- `advance()`: `this.current_index += 1; this.current_element = this.input[this.current_index]`. -/
def advance (ctx : IndexableContext) : IndexableContext :=
  { ctx with
      current_index := ctx.current_index + 1
      current_element := jsIndex ctx.input (ctx.current_index + 1) }

/-- `reset(index)`: throws the fatal commitment violation when
`index < this.cut_point` (when `cut_point` is still `undefined` the JS
comparison is `false` and no check happens), otherwise moves the position
and recomputes the current element. -/
def reset (ctx : IndexableContext) (index : Nat) : Except CutViolation IndexableContext :=
  match ctx.cut_point with
  | some c =>
      if index < c then
        .error ⟨c, ctx.cut_reason, index⟩
      else
        .ok { ctx with current_index := index, current_element := jsIndex ctx.input index }
  | none =>
      .ok { ctx with current_index := index, current_element := jsIndex ctx.input index }

end IndexableContext

/-- The parser-node graph.  Each constructor is one `Parser` subclass of the
source; constructor argument order follows the subclass constructors.
`kleene` is `KleeneStarParser`, whose constructor builds
`parser.many().optional()` and whose `parse` delegates to it.  `delayed`
carries the `ParserProducer`, a function from the context to a parser. -/
inductive Parser : Type where
  | basic (matcher : JSVal → Bool) : Parser
  | onExit (parser : Parser) : Parser
  | cutP (parser : Parser) (reason : String) : Parser
  | caching (parser : Parser) : Parser
  | guard (parser : Parser) (block : IndexableContext → Bool) : Parser
  | onFailure (parser : Parser) : Parser
  | onSuccess (parser : Parser) : Parser
  | onEnter (parser : Parser) : Parser
  | affirm (parser : Parser) : Parser
  | deny (parser : Parser) : Parser
  | alternation (alternatives : List Parser) : Parser
  | sequence (sequence : List Parser) : Parser
  | transform (parser : Parser) (transformation : JSVal → JSVal) : Parser
  | many (parser : Parser) : Parser
  | optionalP (parser : Parser) : Parser
  | kleene (parser : Parser) : Parser
  | delayed (producer : IndexableContext → Parser) : Parser

/-- The JS property-key coercion `String(parser)` used by
`input.cache[this]` in `CachingParser.parse`.  No parser class overrides
`Object.prototype.toString`, so every parser instance coerces to the same
string. -/
def jsStringKey (_ : Parser) : String := "[object Object]"

/-- The outcome of running a `parse` method: a normal return (whose value
may be the absent failure value), the thrown backtrack-past-cut `Error`, or
fuel exhaustion (an artifact of the fuel-indexed embedding). -/
inductive PResult : Type where
  | ok (value : JSVal) (ctx : IndexableContext) : PResult
  | fatal (e : CutViolation) : PResult
  | timeout : PResult

/-- The `while` loop of `AlternationParser.parse`, with the threaded
`result` accumulator (initially `null`), the captured starting index, and
the remaining alternatives; `input.reset(current_index)` runs before every
attempt. -/
def altLoop (recur : Parser → IndexableContext → PResult) :
    List Parser → JSVal → Nat → IndexableContext → PResult
  | [], res, _, ctx => .ok res ctx
  | p :: ps, _, start, ctx =>
      match ctx.reset start with
      | .error e => .fatal e
      | .ok ctx1 =>
          match recur p ctx1 with
          | .ok v ctx2 =>
              if v.is_null then altLoop recur ps v start ctx2 else .ok v ctx2
          | r => r

/-- The `while` loop of `SequenceParser.parse`, with the
`result_accumulator`; a failing child returns `null` immediately with the
context wherever that child left it. -/
def seqLoop (recur : Parser → IndexableContext → PResult) :
    List Parser → List JSVal → IndexableContext → PResult
  | [], acc, ctx => .ok (.arr acc) ctx
  | p :: ps, acc, ctx =>
      match recur p ctx with
      | .ok v ctx1 =>
          if v.is_not_null then seqLoop recur ps (acc ++ [v]) ctx1 else .ok .null ctx1
      | r => r

/-- The `while` loop of `ManyParser.parse` after the first success: `cur`
is the recorded `current_index` after the last success; on the first
failure the cursor is `reset` there (which itself can hit a cut) and the
accumulator is returned.  The loop consumes one unit of fuel per iteration. -/
def manyLoop (recur : Parser → IndexableContext → PResult) (c : Parser) :
    Nat → List JSVal → Nat → IndexableContext → PResult
  | 0, _, _, _ => .timeout
  | fl + 1, acc, cur, ctx =>
      match recur c ctx with
      | .ok v ctx1 =>
          if v.is_not_null then
            manyLoop recur c fl (acc ++ [v]) ctx1.current_index ctx1
          else
            match ctx1.reset cur with
            | .ok ctx2 => .ok (.arr acc) ctx2
            | .error e => .fatal e
      | r => r

/-- One step of the interpreter: the body of each subclass's `parse`
method, with `recur` standing for the recursive calls `parser.parse(input)`
and `fl` the fuel available to internal loops. -/
def parseStep (recur : Parser → IndexableContext → PResult) (fl : Nat) :
    Parser → IndexableContext → PResult
  | .basic matcher, ctx =>
      -- `if (is_not_null(current_element) && matcher(current_element)) { advance; return it }`
      if ctx.current_element.is_not_null && matcher ctx.current_element then
        .ok ctx.current_element ctx.advance
      else
        .ok .null ctx
  | .onExit p, ctx =>
      -- run the parser, run the block (instrumentation only), return the result
      recur p ctx
  | .cutP p reason, ctx =>
      -- `if (result !== null) { input.cut(reason) } return result`
      match recur p ctx with
      | .ok v ctx1 => if v.eqNull then .ok v ctx1 else .ok v (ctx1.cut reason)
      | r => r
  | .caching p, ctx =>
      -- `if (!input.cache[this]) input.cache[this] = {}` — JS coerces the key
      match Cache.find ctx.cache (jsStringKey (.caching p)) with
      | none =>
          -- fresh bucket installed, then guaranteed miss
          let ctxb : IndexableContext :=
            { ctx with cache := Cache.insert ctx.cache (jsStringKey (.caching p)) [] }
          match recur p ctxb with
          | .ok v ctx1 =>
              .ok v { ctx1 with
                cache := Cache.insert ctx1.cache (jsStringKey (.caching p))
                  (Bucket.insert ((Cache.find ctx1.cache (jsStringKey (.caching p))).getD [])
                    ctx.current_index (v, ctx1.current_index)) }
          | r => r
      | some bucket =>
          match Bucket.find bucket ctx.current_index with
          | none =>
              match recur p ctx with
              | .ok v ctx1 =>
                  .ok v { ctx1 with
                    cache := Cache.insert ctx1.cache (jsStringKey (.caching p))
                      (Bucket.insert ((Cache.find ctx1.cache (jsStringKey (.caching p))).getD [])
                        ctx.current_index (v, ctx1.current_index)) }
              | r => r
          | some (v, ending) =>
              -- cache hit: `input.reset(result_pair[1]); return result_pair[0]`
              match ctx.reset ending with
              | .ok ctx1 => .ok v ctx1
              | .error e => .fatal e
  | .guard p block, ctx =>
      if block ctx then recur p ctx else .ok .null ctx
  | .onFailure p, ctx =>
      recur p ctx
  | .onSuccess p, ctx =>
      recur p ctx
  | .onEnter p, ctx =>
      recur p ctx
  | .affirm p, ctx =>
      -- PositiveLookaheadParser: note the bare truthiness test `if (result)`
      match recur p ctx with
      | .ok v ctx1 =>
          if v.truthy then
            match ctx1.reset ctx.current_index with
            | .ok ctx2 => .ok v ctx2
            | .error e => .fatal e
          else
            .ok .null ctx1
      | r => r
  | .deny p, ctx =>
      -- NegativeLookaheadParser, also a bare truthiness test
      match recur p ctx with
      | .ok v ctx1 =>
          if v.truthy then
            .ok .null ctx1
          else
            match ctx1.reset ctx.current_index with
            | .ok ctx2 => .ok (.bool true) ctx2
            | .error e => .fatal e
      | r => r
  | .alternation ps, ctx =>
      altLoop recur ps .null ctx.current_index ctx
  | .sequence ps, ctx =>
      seqLoop recur ps [] ctx
  | .transform p transformation, ctx =>
      match recur p ctx with
      | .ok v ctx1 =>
          if v.is_not_null then .ok (transformation v) ctx1 else .ok .null ctx1
      | r => r
  | .many p, ctx =>
      match recur p ctx with
      | .ok v ctx1 =>
          if v.is_not_null then
            manyLoop recur p fl [v] ctx1.current_index ctx1
          else
            .ok .null ctx1
      | r => r
  | .optionalP p, ctx =>
      match recur p ctx with
      | .ok v ctx1 =>
          if v.is_not_null then
            .ok v ctx1
          else
            match ctx1.reset ctx.current_index with
            | .ok ctx2 => .ok (.arr []) ctx2
            | .error e => .fatal e
      | r => r
  | .kleene p, ctx =>
      -- KleeneStarParser delegates to the `parser.many().optional()` it built
      recur (.optionalP (.many p)) ctx
  | .delayed producer, ctx =>
      recur (producer ctx) ctx

/-- The fuel-indexed interpreter: every nested `parse` call costs one unit
of fuel.  With fuel `0` the run is cut off (`timeout`). -/
def parse : Nat → Parser → IndexableContext → PResult
  | 0 => fun _ _ => .timeout
  | f + 1 => parseStep (parse f) f

/-- `Parser.parse_input`: wrap the indexable in a fresh context and parse. -/
def parse_input (f : Nat) (p : Parser) (input : List JSVal) : PResult :=
  parse f p (IndexableContext.mk0 input)

/-- The returned value of a normal run. -/
def PResult.result? : PResult → Option JSVal
  | .ok v _ => some v
  | _ => none

/-- The final cursor position of a normal run. -/
def PResult.index? : PResult → Option Nat
  | .ok _ ctx => some ctx.current_index
  | _ => none

/-- The final cut point of a normal run. -/
def PResult.cutPoint? : PResult → Option (Option Nat)
  | .ok _ ctx => some ctx.cut_point
  | _ => none

/-! ## Invariants of the cursor

`Sync` is the data-model invariant that the stored `current_element` is
exactly the input value at `current_index` (the constructor, `advance` and
`reset` all maintain it).  `CutInv` is the cut-point invariant: once a cut
is set, the position is at or beyond it.  `cutLE` orders cut states:
the cut point never moves backward.  `Bounded B` bounds every position a
context can reproduce (its own, the input length, and every ending stored
in the memo table) by `B`. -/

def Sync (ctx : IndexableContext) : Prop :=
  ctx.current_element = jsIndex ctx.input ctx.current_index

def CutInv (ctx : IndexableContext) : Prop :=
  ∀ c, ctx.cut_point = some c → c ≤ ctx.current_index

def cutLE (o o' : Option Nat) : Prop :=
  ∀ c, o = some c → ∃ c', o' = some c' ∧ c ≤ c'

def bucketBounded (B : Nat) (b : Bucket) : Prop :=
  ∀ i v e, (i, (v, e)) ∈ b → e ≤ B

def cacheBounded (B : Nat) (c : Cache) : Prop :=
  ∀ k b, (k, b) ∈ c → bucketBounded B b

def Bounded (B : Nat) (ctx : IndexableContext) : Prop :=
  ctx.current_index ≤ B ∧ ctx.input.length ≤ B ∧ cacheBounded B ctx.cache

/-- What one `parse` run preserves, from its starting context to the
context of a normal return. -/
def Pres (ctx ctx' : IndexableContext) : Prop :=
  ctx'.input = ctx.input ∧
  (Sync ctx → Sync ctx') ∧
  (CutInv ctx → CutInv ctx' ∧ cutLE ctx.cut_point ctx'.cut_point) ∧
  (Sync ctx → ∀ B, Bounded B ctx → Bounded B ctx')

/-- `Pres`, for a run that may also `reset` to the recorded position
`start` (the loops of alternation, repetition, lookahead and the memo
replay): boundedness additionally needs `start ≤ B`. -/
def PresS (start : Nat) (ctx ctx' : IndexableContext) : Prop :=
  ctx'.input = ctx.input ∧
  (Sync ctx → Sync ctx') ∧
  (CutInv ctx → CutInv ctx' ∧ cutLE ctx.cut_point ctx'.cut_point) ∧
  (Sync ctx → ∀ B, start ≤ B → Bounded B ctx → Bounded B ctx')

/-- The inductive hypothesis on nested `parse` calls. -/
def RecurPres (R : Parser → IndexableContext → PResult) : Prop :=
  ∀ p ctx v ctx', R p ctx = .ok v ctx' → Pres ctx ctx'

/-- `R2` agrees with `R1` wherever `R1` does not run out of fuel. -/
def Refines (R1 R2 : Parser → IndexableContext → PResult) : Prop :=
  ∀ p ctx, R1 p ctx ≠ .timeout → R2 p ctx = R1 p ctx

def matchA : JSVal → Bool
  | .str s => s == "a"
  | _ => false

def matchB : JSVal → Bool
  | .str s => s == "b"
  | _ => false

def matchZero : JSVal → Bool
  | .num n => n == 0
  | _ => false

/-- The successive failed attempts of an alternation: each child of the
list, tried after a reset of the cursor to `start`, returns an absent
result; the chain threads the context (failed children may have touched
the memo table or the cut state) and ends with the last failure value and
context. -/
inductive FailChain (R : Parser → IndexableContext → PResult) (start : Nat) :
    List Parser → JSVal → IndexableContext → JSVal → IndexableContext → Prop where
  | nil (res : JSVal) (σ : IndexableContext) : FailChain R start [] res σ res σ
  | cons {p : Parser} {ps : List Parser} {res v w : JSVal}
      {σ σr σ' σf : IndexableContext}
      (hr : σ.reset start = .ok σr) (hp : R p σr = .ok v σ') (hv : v.is_null = true)
      (tail : FailChain R start ps v σ' w σf) :
      FailChain R start (p :: ps) res σ w σf

/-- The successful prefix of a sequence: each child runs where the previous
one stopped (no reset between children), returns a present value, and the
results are collected in order. -/
inductive SeqChain (R : Parser → IndexableContext → PResult) :
    List Parser → IndexableContext → List JSVal → IndexableContext → Prop where
  | nil (σ : IndexableContext) : SeqChain R [] σ [] σ
  | cons {p : Parser} {ps : List Parser} {v : JSVal} {vs : List JSVal}
      {σ σ' σf : IndexableContext}
      (hp : R p σ = .ok v σ') (hv : v.is_not_null = true)
      (tail : SeqChain R ps σ' vs σf) :
      SeqChain R (p :: ps) σ (v :: vs) σf

/-- The successive invocations of `ManyParser`'s child: zero or more
successful runs (their results collected in order), then one failing run.
`σL` is the context right after the last success (where the cursor must be
restored), `σF` the context where the failing attempt stopped. -/
inductive ManyTrace (c : Parser) :
    IndexableContext → List JSVal → IndexableContext → IndexableContext → Prop where
  | fail {σ σ' : IndexableContext} {v : JSVal} (f : Nat)
      (h : parse f c σ = .ok v σ') (hv : v.is_null = true) :
      ManyTrace c σ [] σ σ'
  | step {σ σ1 σL σF : IndexableContext} {v : JSVal} {vs : List JSVal} (f : Nat)
      (h : parse f c σ = .ok v σ1) (hv : v.is_not_null = true)
      (tail : ManyTrace c σ1 vs σL σF) :
      ManyTrace c σ (v :: vs) σL σF

/-- What `ManyParser.parse` produces from a completed trace: failure when
even the first attempt failed, otherwise the accumulated results after the
final reset to just past the last success — a reset that itself aborts
fatally if the failed attempt moved the cut point beyond that position. -/
def manyOutcome (vs : List JSVal) (σL σF : IndexableContext) : PResult :=
  match vs with
  | [] => .ok .null σF
  | _ :: _ =>
      match σF.reset σL.current_index with
      | .ok σR => .ok (.arr vs) σR
      | .error e => .fatal e

def bucketMax : Bucket → Nat
  | [] => 0
  | (_, (_, e)) :: b => max e (bucketMax b)

def cacheMax : Cache → Nat
  | [] => 0
  | (_, b) :: cs => max (bucketMax b) (cacheMax cs)

/-- A bound on every position this context can reproduce. -/
def ctxBound (ctx : IndexableContext) : Nat :=
  max (max ctx.current_index ctx.input.length) (cacheMax ctx.cache)

def matchNone : JSVal → Bool := fun _ => false

theorem cutLE_refl (o : Option Nat) : cutLE o o :=
  fun c hc => ⟨c, hc, le_refl c⟩

theorem cutLE_trans {o1 o2 o3 : Option Nat} (h1 : cutLE o1 o2) (h2 : cutLE o2 o3) :
    cutLE o1 o3 := by
  intro c hc
  obtain ⟨c', hc', hle⟩ := h1 c hc
  obtain ⟨c'', hc'', hle'⟩ := h2 c' hc'
  exact ⟨c'', hc'', le_trans hle hle'⟩

theorem pres_refl (ctx : IndexableContext) : Pres ctx ctx :=
  ⟨rfl, id, fun h => ⟨h, cutLE_refl _⟩, fun _ _ hB => hB⟩

theorem pres_trans {ctx1 ctx2 ctx3 : IndexableContext}
    (h1 : Pres ctx1 ctx2) (h2 : Pres ctx2 ctx3) : Pres ctx1 ctx3 := by
  obtain ⟨hi1, hs1, hc1, hb1⟩ := h1
  obtain ⟨hi2, hs2, hc2, hb2⟩ := h2
  refine ⟨hi2.trans hi1, fun h => hs2 (hs1 h), fun h => ?_, fun hs B hB => ?_⟩
  · obtain ⟨hinv, hle⟩ := hc1 h
    obtain ⟨hinv', hle'⟩ := hc2 hinv
    exact ⟨hinv', cutLE_trans hle hle'⟩
  · exact hb2 (hs1 hs) B (hb1 hs B hB)

theorem pres_presS {start : Nat} {ctx ctx' : IndexableContext} (h : Pres ctx ctx') :
    PresS start ctx ctx' :=
  ⟨h.1, h.2.1, h.2.2.1, fun hs B _ hB => h.2.2.2 hs B hB⟩

theorem presS_trans {start : Nat} {ctx1 ctx2 ctx3 : IndexableContext}
    (h1 : PresS start ctx1 ctx2) (h2 : PresS start ctx2 ctx3) : PresS start ctx1 ctx3 := by
  obtain ⟨hi1, hs1, hc1, hb1⟩ := h1
  obtain ⟨hi2, hs2, hc2, hb2⟩ := h2
  refine ⟨hi2.trans hi1, fun h => hs2 (hs1 h), fun h => ?_, fun hs B hsB hB => ?_⟩
  · obtain ⟨hinv, hle⟩ := hc1 h
    obtain ⟨hinv', hle'⟩ := hc2 hinv
    exact ⟨hinv', cutLE_trans hle hle'⟩
  · exact hb2 (hs1 hs) B hsB (hb1 hs B hsB hB)

theorem presS_pres_trans {start : Nat} {ctx1 ctx2 ctx3 : IndexableContext}
    (h1 : PresS start ctx1 ctx2) (h2 : Pres ctx2 ctx3) : PresS start ctx1 ctx3 :=
  presS_trans h1 (pres_presS h2)

/-! ### The primitive cursor operations -/

/-- A successful `reset` lands exactly on the requested index with the
element recomputed from the input, changing nothing else, and the target
is at or beyond any active cut point. -/
theorem reset_ok {ctx σ : IndexableContext} {i : Nat} (h : ctx.reset i = .ok σ) :
    σ.input = ctx.input ∧ σ.current_index = i ∧
      σ.current_element = jsIndex ctx.input i ∧ σ.cache = ctx.cache ∧
      σ.cut_point = ctx.cut_point ∧ σ.cut_reason = ctx.cut_reason ∧
      ∀ c, ctx.cut_point = some c → c ≤ i := by
  unfold IndexableContext.reset at h
  split at h
  next c hcp =>
    split at h
    next => exact absurd h (by simp)
    next hlt =>
      injection h with h
      subst h
      refine ⟨rfl, rfl, rfl, rfl, rfl, rfl, fun c' hc' => ?_⟩
      rw [hcp] at hc'
      injection hc' with hc'
      omega
  next hcp =>
    injection h with h
    subst h
    simp [hcp]

/-- A `reset` below the active cut point throws the commitment violation,
carrying the cut point, the recorded reason and the backtrack target. -/
theorem reset_error {ctx : IndexableContext} {i c : Nat}
    (hcp : ctx.cut_point = some c) (hlt : i < c) :
    ctx.reset i = .error ⟨c, ctx.cut_reason, i⟩ := by
  unfold IndexableContext.reset
  rw [hcp]
  simp [hlt]

theorem reset_presS {ctx σ : IndexableContext} {i : Nat} (h : ctx.reset i = .ok σ) :
    PresS i ctx σ := by
  obtain ⟨hin, hidx, hel, hca, hcp, hcr, hcut⟩ := reset_ok h
  refine ⟨hin, fun _ => ?_, fun _ => ⟨?_, ?_⟩, fun _ B hiB hB => ⟨?_, ?_, ?_⟩⟩
  · rw [Sync, hel, hin, hidx]
  · intro c hc
    rw [hcp] at hc
    rw [hidx]
    exact hcut c hc
  · rw [hcp]
    exact cutLE_refl _
  · rw [hidx]
    exact hiB
  · rw [hin]
    exact hB.2.1
  · rw [hca]
    exact hB.2.2

theorem cut_pres {ctx : IndexableContext} {reason : String} :
    Pres ctx (ctx.cut reason) := by
  refine ⟨rfl, fun h => h, fun h => ?_, fun _ B hB => ⟨hB.1, hB.2.1, hB.2.2⟩⟩
  refine ⟨fun c hc => by cases hc; exact le_refl _, fun c hc => ?_⟩
  exact ⟨ctx.current_index, rfl, h c hc⟩

/-- A non-absent element at the current position lies strictly inside the
input. -/
theorem lt_length_of_is_not_null {input : List JSVal} {i : Nat}
    (h : (jsIndex input i).is_not_null = true) : i < input.length := by
  by_contra hge
  have hnone : input.get? i = none := List.get?_eq_none.mpr (le_of_not_lt hge)
  unfold jsIndex at h
  rw [hnone] at h
  exact absurd h (by decide)

theorem advance_pres {ctx : IndexableContext}
    (hnn : ctx.current_element.is_not_null = true) : Pres ctx ctx.advance := by
  refine ⟨rfl, fun _ => rfl, fun h => ?_, fun hs B hB => ?_⟩
  · refine ⟨fun c hc => ?_, fun c hc => ⟨c, hc, le_refl c⟩⟩
    have := h c hc
    simp only [IndexableContext.advance] at hc ⊢
    omega
  · rw [Sync] at hs
    rw [hs] at hnn
    have hlt := lt_length_of_is_not_null hnn
    exact ⟨by simpa [IndexableContext.advance] using Nat.succ_le_of_lt (lt_of_lt_of_le hlt hB.2.1),
      hB.2.1, hB.2.2⟩

/-! ### Memo-table boundedness plumbing -/

theorem bucketBounded_nil {B : Nat} : bucketBounded B [] :=
  fun _ _ _ h => absurd h (List.not_mem_nil _)

theorem bucketBounded_insert {B : Nat} {b : Bucket} {i : Nat} {v : JSVal} {e : Nat}
    (hb : bucketBounded B b) (he : e ≤ B) : bucketBounded B (Bucket.insert b i (v, e)) := by
  intro i' v' e' hmem
  rcases List.mem_cons.mp hmem with h | h
  · injection h with h1 h2
    injection h2 with h3 h4
    omega
  · exact hb i' v' e' h

theorem cacheBounded_find {B : Nat} {c : Cache} {k : String} {b : Bucket}
    (hc : cacheBounded B c) (hf : Cache.find c k = some b) : bucketBounded B b := by
  induction c with
  | nil => simp [Cache.find] at hf
  | cons kb c ih =>
      obtain ⟨k', b'⟩ := kb
      rw [Cache.find] at hf
      by_cases hk : k' = k
      · rw [if_pos hk] at hf
        injection hf with hf
        subst hf
        exact hc k' b' (List.mem_cons_self _ _)
      · rw [if_neg hk] at hf
        exact ih (fun k'' b'' hmem => hc k'' b'' (List.mem_cons_of_mem _ hmem)) hf

theorem cacheBounded_findD {B : Nat} {c : Cache} {k : String}
    (hc : cacheBounded B c) : bucketBounded B ((Cache.find c k).getD []) := by
  cases hf : Cache.find c k with
  | none => exact bucketBounded_nil
  | some b => exact cacheBounded_find hc hf

theorem bucketBounded_find {B : Nat} {b : Bucket} {i : Nat} {v : JSVal} {e : Nat}
    (hb : bucketBounded B b) (hf : Bucket.find b i = some (v, e)) : e ≤ B := by
  induction b with
  | nil => simp [Bucket.find] at hf
  | cons p b ih =>
      obtain ⟨i', e'⟩ := p
      rw [Bucket.find] at hf
      by_cases hi : i' = i
      · rw [if_pos hi] at hf
        injection hf with hf
        subst hf
        exact hb i' v e (List.mem_cons_self _ _)
      · rw [if_neg hi] at hf
        exact ih (fun i'' v'' e'' hmem => hb i'' v'' e'' (List.mem_cons_of_mem _ hmem)) hf

theorem cacheBounded_insert {B : Nat} {c : Cache} {k : String} {b : Bucket}
    (hc : cacheBounded B c) (hb : bucketBounded B b) :
    cacheBounded B (Cache.insert c k b) := by
  induction c with
  | nil =>
      intro k' b' hmem
      rcases List.mem_cons.mp hmem with h | h
      · injection h with h1 h2
        subst h2
        exact hb
      · exact absurd h (List.not_mem_nil _)
  | cons kb c ih =>
      obtain ⟨k0, b0⟩ := kb
      rw [Cache.insert]
      by_cases hk : k0 = k
      · rw [if_pos hk]
        intro k' b' hmem
        rcases List.mem_cons.mp hmem with h | h
        · injection h with h1 h2
          subst h2
          exact hb
        · exact hc k' b' (List.mem_cons_of_mem _ h)
      · rw [if_neg hk]
        intro k' b' hmem
        rcases List.mem_cons.mp hmem with h | h
        · injection h with h1 h2
          subst h1
          subst h2
          exact hc k' b' (List.mem_cons_self _ _)
        · exact ih (fun k'' b'' hmem' => hc k'' b'' (List.mem_cons_of_mem _ hmem')) k' b' h

/-! ### Composition helpers for runs that record positions -/

theorem pres_presS_trans_left {s : Nat} {ctx1 ctx2 ctx3 : IndexableContext}
    (h1 : Pres ctx1 ctx2) (h2 : PresS s ctx2 ctx3) : PresS s ctx1 ctx3 := by
  obtain ⟨hi1, hs1, hc1, hb1⟩ := h1
  obtain ⟨hi2, hs2, hc2, hb2⟩ := h2
  refine ⟨hi2.trans hi1, fun h => hs2 (hs1 h), fun h => ?_, fun hs B hsB hB => ?_⟩
  · obtain ⟨hinv, hle⟩ := hc1 h
    obtain ⟨hinv', hle'⟩ := hc2 hinv
    exact ⟨hinv', cutLE_trans hle hle'⟩
  · exact hb2 (hs1 hs) B hsB (hb1 hs B hB)

theorem pres_presSnext_trans {s : Nat} {ctx1 ctx2 ctx3 : IndexableContext}
    (h1 : Pres ctx1 ctx2) (h2 : PresS ctx2.current_index ctx2 ctx3) :
    PresS s ctx1 ctx3 := by
  obtain ⟨hi1, hs1, hc1, hb1⟩ := h1
  obtain ⟨hi2, hs2, hc2, hb2⟩ := h2
  refine ⟨hi2.trans hi1, fun h => hs2 (hs1 h), fun h => ?_, fun hs B _ hB => ?_⟩
  · obtain ⟨hinv, hle⟩ := hc1 h
    obtain ⟨hinv', hle'⟩ := hc2 hinv
    exact ⟨hinv', cutLE_trans hle hle'⟩
  · exact hb2 (hs1 hs) B (hb1 hs B hB).1 (hb1 hs B hB)

theorem presS_start_pres {ctx ctx' : IndexableContext}
    (h : PresS ctx.current_index ctx ctx') : Pres ctx ctx' :=
  ⟨h.1, h.2.1, h.2.2.1, fun hs B hB => h.2.2.2 hs B hB.1 hB⟩

theorem pres_of_pres_presS_start {ctx ctx1 ctx2 : IndexableContext}
    (h1 : Pres ctx ctx1) (h2 : PresS ctx.current_index ctx1 ctx2) : Pres ctx ctx2 :=
  presS_start_pres (presS_trans (pres_presS h1) h2)

/-! ### Preservation through one parse run -/

theorem altLoop_pres {R : Parser → IndexableContext → PResult} (H : RecurPres R) :
    ∀ (ps : List Parser) (res : JSVal) (start : Nat) (ctx : IndexableContext)
      (v : JSVal) (ctx' : IndexableContext),
      altLoop R ps res start ctx = .ok v ctx' → PresS start ctx ctx' := by
  intro ps
  induction ps with
  | nil =>
      intro res start ctx v ctx' h
      rw [altLoop] at h
      injection h with h1 h2
      subst h2
      exact pres_presS (pres_refl ctx)
  | cons p ps ih =>
      intro res start ctx v ctx' h
      cases hr : ctx.reset start with
      | error e =>
          simp only [altLoop, hr] at h
          exact absurd h (by simp)
      | ok ctx1 =>
          simp only [altLoop, hr] at h
          cases hc : R p ctx1 with
          | ok v2 ctx2 =>
              simp only [hc] at h
              by_cases hnull : v2.is_null = true
              · rw [if_pos hnull] at h
                exact presS_trans (presS_pres_trans (reset_presS hr) (H _ _ _ _ hc)) (ih _ _ _ _ _ h)
              · rw [if_neg hnull] at h
                injection h with h1 h2
                subst h2
                exact presS_pres_trans (reset_presS hr) (H _ _ _ _ hc)
          | fatal e =>
              simp only [hc] at h
              exact absurd h (by simp)
          | timeout =>
              simp only [hc] at h
              exact absurd h (by simp)

theorem seqLoop_pres {R : Parser → IndexableContext → PResult} (H : RecurPres R) :
    ∀ (ps : List Parser) (acc : List JSVal) (ctx : IndexableContext)
      (v : JSVal) (ctx' : IndexableContext),
      seqLoop R ps acc ctx = .ok v ctx' → Pres ctx ctx' := by
  intro ps
  induction ps with
  | nil =>
      intro acc ctx v ctx' h
      rw [seqLoop] at h
      injection h with h1 h2
      subst h2
      exact pres_refl ctx
  | cons p ps ih =>
      intro acc ctx v ctx' h
      cases hc : R p ctx with
      | ok v1 ctx1 =>
          simp only [seqLoop, hc] at h
          by_cases hnn : v1.is_not_null = true
          · rw [if_pos hnn] at h
            exact pres_trans (H _ _ _ _ hc) (ih _ _ _ _ h)
          · rw [if_neg hnn] at h
            injection h with h1 h2
            subst h2
            exact H _ _ _ _ hc
      | fatal e =>
          simp only [seqLoop, hc] at h
          exact absurd h (by simp)
      | timeout =>
          simp only [seqLoop, hc] at h
          exact absurd h (by simp)

theorem manyLoop_pres {R : Parser → IndexableContext → PResult} (H : RecurPres R)
    (c : Parser) :
    ∀ (fl : Nat) (acc : List JSVal) (cur : Nat) (ctx : IndexableContext)
      (v : JSVal) (ctx' : IndexableContext),
      manyLoop R c fl acc cur ctx = .ok v ctx' → PresS cur ctx ctx' := by
  intro fl
  induction fl with
  | zero =>
      intro acc cur ctx v ctx' h
      rw [manyLoop] at h
      exact absurd h (by simp)
  | succ fl ih =>
      intro acc cur ctx v ctx' h
      cases hc : R c ctx with
      | ok v1 ctx1 =>
          simp only [manyLoop, hc] at h
          by_cases hnn : v1.is_not_null = true
          · rw [if_pos hnn] at h
            exact pres_presSnext_trans (H _ _ _ _ hc) (ih _ _ _ _ _ h)
          · rw [if_neg hnn] at h
            cases hr : ctx1.reset cur with
            | ok ctx2 =>
                simp only [hr] at h
                injection h with h1 h2
                subst h2
                exact pres_presS_trans_left (H _ _ _ _ hc) (reset_presS hr)
            | error e =>
                simp only [hr] at h
                exact absurd h (by simp)
      | fatal e =>
          simp only [manyLoop, hc] at h
          exact absurd h (by simp)
      | timeout =>
          simp only [manyLoop, hc] at h
          exact absurd h (by simp)

/-- Adding a bucket to the memo table preserves everything, provided the
bucket's endings are bounded whenever the context is. -/
theorem cache_write_pres {ctx : IndexableContext} {k : String} {b : Bucket}
    (hb : ∀ B, Bounded B ctx → bucketBounded B b) :
    Pres ctx { ctx with cache := Cache.insert ctx.cache k b } :=
  ⟨rfl, fun hs => hs, fun hc => ⟨hc, cutLE_refl _⟩,
    fun _ B hB => ⟨hB.1, hB.2.1, cacheBounded_insert hB.2.2 (hb B hB)⟩⟩

theorem parseStep_pres {R : Parser → IndexableContext → PResult} (H : RecurPres R)
    (fl : Nat) :
    ∀ (p : Parser) (ctx : IndexableContext) (v : JSVal) (ctx' : IndexableContext),
      parseStep R fl p ctx = .ok v ctx' → Pres ctx ctx' := by
  intro p
  cases p with
  | basic m =>
      intro ctx v ctx' h
      simp only [parseStep] at h
      by_cases hcond : (ctx.current_element.is_not_null && m ctx.current_element) = true
      · rw [if_pos hcond] at h
        injection h with h1 h2
        subst h2
        exact advance_pres ((Bool.and_eq_true _ _).mp hcond).1
      · rw [if_neg hcond] at h
        injection h with h1 h2
        subst h2
        exact pres_refl _
  | onExit p =>
      intro ctx v ctx' h
      simp only [parseStep] at h
      exact H _ _ _ _ h
  | cutP p reason =>
      intro ctx v ctx' h
      simp only [parseStep] at h
      cases hc : R p ctx with
      | ok v1 ctx1 =>
          simp only [hc] at h
          by_cases he : v1.eqNull = true
          · rw [if_pos he] at h
            injection h with h1 h2
            subst h2
            exact H _ _ _ _ hc
          · rw [if_neg he] at h
            injection h with h1 h2
            subst h2
            exact pres_trans (H _ _ _ _ hc) cut_pres
      | fatal e =>
          simp only [hc] at h
          exact absurd h (by simp)
      | timeout =>
          simp only [hc] at h
          exact absurd h (by simp)
  | caching p =>
      intro ctx v ctx' h
      simp only [parseStep, jsStringKey] at h
      cases hf : Cache.find ctx.cache "[object Object]" with
      | none =>
          simp only [hf] at h
          cases hrec : R p { ctx with
              cache := Cache.insert ctx.cache "[object Object]" [] } with
          | ok v1 ctx1 =>
              simp only [hrec] at h
              injection h with h1 h2
              subst h2
              refine pres_trans
                (pres_trans (cache_write_pres (fun B _ => bucketBounded_nil)) (H _ _ _ _ hrec))
                (cache_write_pres (fun B hB => ?_))
              exact bucketBounded_insert (cacheBounded_findD hB.2.2) hB.1
          | fatal e =>
              simp only [hrec] at h
              exact absurd h (by simp)
          | timeout =>
              simp only [hrec] at h
              exact absurd h (by simp)
      | some bucket =>
          simp only [hf] at h
          cases hbf : Bucket.find bucket ctx.current_index with
          | none =>
              simp only [hbf] at h
              cases hrec : R p ctx with
              | ok v1 ctx1 =>
                  simp only [hrec] at h
                  injection h with h1 h2
                  subst h2
                  refine pres_trans (H _ _ _ _ hrec) (cache_write_pres (fun B hB => ?_))
                  exact bucketBounded_insert (cacheBounded_findD hB.2.2) hB.1
              | fatal e =>
                  simp only [hrec] at h
                  exact absurd h (by simp)
              | timeout =>
                  simp only [hrec] at h
                  exact absurd h (by simp)
          | some ve =>
              obtain ⟨v0, e0⟩ := ve
              simp only [hbf] at h
              cases hr : ctx.reset e0 with
              | ok ctx1 =>
                  simp only [hr] at h
                  injection h with h1 h2
                  subst h2
                  have hps := reset_presS hr
                  exact ⟨hps.1, hps.2.1, hps.2.2.1, fun hs B hB =>
                    hps.2.2.2 hs B
                      (bucketBounded_find (cacheBounded_find hB.2.2 hf) hbf) hB⟩
              | error e =>
                  simp only [hr] at h
                  exact absurd h (by simp)
  | guard p block =>
      intro ctx v ctx' h
      simp only [parseStep] at h
      by_cases hb : block ctx = true
      · rw [if_pos hb] at h
        exact H _ _ _ _ h
      · rw [if_neg hb] at h
        injection h with h1 h2
        subst h2
        exact pres_refl _
  | onFailure p =>
      intro ctx v ctx' h
      simp only [parseStep] at h
      exact H _ _ _ _ h
  | onSuccess p =>
      intro ctx v ctx' h
      simp only [parseStep] at h
      exact H _ _ _ _ h
  | onEnter p =>
      intro ctx v ctx' h
      simp only [parseStep] at h
      exact H _ _ _ _ h
  | affirm p =>
      intro ctx v ctx' h
      simp only [parseStep] at h
      cases hrec : R p ctx with
      | ok v1 ctx1 =>
          simp only [hrec] at h
          by_cases ht : v1.truthy = true
          · rw [if_pos ht] at h
            cases hr : ctx1.reset ctx.current_index with
            | ok ctx2 =>
                simp only [hr] at h
                injection h with h1 h2
                subst h2
                exact pres_of_pres_presS_start (H _ _ _ _ hrec) (reset_presS hr)
            | error e =>
                simp only [hr] at h
                exact absurd h (by simp)
          · rw [if_neg ht] at h
            injection h with h1 h2
            subst h2
            exact H _ _ _ _ hrec
      | fatal e =>
          simp only [hrec] at h
          exact absurd h (by simp)
      | timeout =>
          simp only [hrec] at h
          exact absurd h (by simp)
  | deny p =>
      intro ctx v ctx' h
      simp only [parseStep] at h
      cases hrec : R p ctx with
      | ok v1 ctx1 =>
          simp only [hrec] at h
          by_cases ht : v1.truthy = true
          · rw [if_pos ht] at h
            injection h with h1 h2
            subst h2
            exact H _ _ _ _ hrec
          · rw [if_neg ht] at h
            cases hr : ctx1.reset ctx.current_index with
            | ok ctx2 =>
                simp only [hr] at h
                injection h with h1 h2
                subst h2
                exact pres_of_pres_presS_start (H _ _ _ _ hrec) (reset_presS hr)
            | error e =>
                simp only [hr] at h
                exact absurd h (by simp)
      | fatal e =>
          simp only [hrec] at h
          exact absurd h (by simp)
      | timeout =>
          simp only [hrec] at h
          exact absurd h (by simp)
  | alternation ps =>
      intro ctx v ctx' h
      simp only [parseStep] at h
      exact presS_start_pres (altLoop_pres H _ _ _ _ _ _ h)
  | sequence ps =>
      intro ctx v ctx' h
      simp only [parseStep] at h
      exact seqLoop_pres H _ _ _ _ _ h
  | transform p t =>
      intro ctx v ctx' h
      simp only [parseStep] at h
      cases hrec : R p ctx with
      | ok v1 ctx1 =>
          simp only [hrec] at h
          by_cases hnn : v1.is_not_null = true
          · rw [if_pos hnn] at h
            injection h with h1 h2
            subst h2
            exact H _ _ _ _ hrec
          · rw [if_neg hnn] at h
            injection h with h1 h2
            subst h2
            exact H _ _ _ _ hrec
      | fatal e =>
          simp only [hrec] at h
          exact absurd h (by simp)
      | timeout =>
          simp only [hrec] at h
          exact absurd h (by simp)
  | many p =>
      intro ctx v ctx' h
      simp only [parseStep] at h
      cases hrec : R p ctx with
      | ok v1 ctx1 =>
          simp only [hrec] at h
          by_cases hnn : v1.is_not_null = true
          · rw [if_pos hnn] at h
            exact presS_start_pres
              (pres_presSnext_trans (H _ _ _ _ hrec) (manyLoop_pres H p _ _ _ _ _ _ h))
          · rw [if_neg hnn] at h
            injection h with h1 h2
            subst h2
            exact H _ _ _ _ hrec
      | fatal e =>
          simp only [hrec] at h
          exact absurd h (by simp)
      | timeout =>
          simp only [hrec] at h
          exact absurd h (by simp)
  | optionalP p =>
      intro ctx v ctx' h
      simp only [parseStep] at h
      cases hrec : R p ctx with
      | ok v1 ctx1 =>
          simp only [hrec] at h
          by_cases hnn : v1.is_not_null = true
          · rw [if_pos hnn] at h
            injection h with h1 h2
            subst h2
            exact H _ _ _ _ hrec
          · rw [if_neg hnn] at h
            cases hr : ctx1.reset ctx.current_index with
            | ok ctx2 =>
                simp only [hr] at h
                injection h with h1 h2
                subst h2
                exact pres_of_pres_presS_start (H _ _ _ _ hrec) (reset_presS hr)
            | error e =>
                simp only [hr] at h
                exact absurd h (by simp)
      | fatal e =>
          simp only [hrec] at h
          exact absurd h (by simp)
      | timeout =>
          simp only [hrec] at h
          exact absurd h (by simp)
  | kleene p =>
      intro ctx v ctx' h
      simp only [parseStep] at h
      exact H _ _ _ _ h
  | delayed producer =>
      intro ctx v ctx' h
      simp only [parseStep] at h
      exact H _ _ _ _ h

/-- Every normal parse run preserves the input, the element/position sync
invariant, the cut invariant (with a never-receding cut point), and
position boundedness. -/
theorem parse_pres :
    ∀ (f : Nat) (p : Parser) (ctx : IndexableContext) (v : JSVal)
      (ctx' : IndexableContext),
      parse f p ctx = .ok v ctx' → Pres ctx ctx' := by
  intro f
  induction f with
  | zero =>
      intro p ctx v ctx' h
      exact absurd h (by simp [parse])
  | succ f ih =>
      intro p ctx v ctx' h
      exact parseStep_pres ih f p ctx v ctx' h

/-! ### Fuel monotonicity

The fuel index is an artifact of the embedding; a run that completes with
some fuel completes identically with any larger fuel. -/

theorem altLoop_mono {R1 R2 : Parser → IndexableContext → PResult} (hR : Refines R1 R2) :
    ∀ (ps : List Parser) (res : JSVal) (start : Nat) (ctx : IndexableContext),
      altLoop R1 ps res start ctx ≠ .timeout →
      altLoop R2 ps res start ctx = altLoop R1 ps res start ctx := by
  intro ps
  induction ps with
  | nil => intro res start ctx _; rfl
  | cons p ps ih =>
      intro res start ctx hnt
      cases hr : ctx.reset start with
      | error e => simp only [altLoop, hr]
      | ok ctx1 =>
          cases hc1 : R1 p ctx1 with
          | ok v2 ctx2 =>
              have hc2 : R2 p ctx1 = .ok v2 ctx2 := (hR p ctx1 (by simp [hc1])).trans hc1
              simp only [altLoop, hr, hc1, hc2] at hnt ⊢
              by_cases hnull : v2.is_null = true
              · simp only [if_pos hnull] at hnt ⊢
                exact ih _ _ _ hnt
              · simp only [if_neg hnull]
          | fatal e =>
              have hc2 : R2 p ctx1 = .fatal e := (hR p ctx1 (by simp [hc1])).trans hc1
              simp only [altLoop, hr, hc1, hc2]
          | timeout =>
              exfalso
              apply hnt
              simp only [altLoop, hr, hc1]
  
theorem seqLoop_mono {R1 R2 : Parser → IndexableContext → PResult} (hR : Refines R1 R2) :
    ∀ (ps : List Parser) (acc : List JSVal) (ctx : IndexableContext),
      seqLoop R1 ps acc ctx ≠ .timeout →
      seqLoop R2 ps acc ctx = seqLoop R1 ps acc ctx := by
  intro ps
  induction ps with
  | nil => intro acc ctx _; rfl
  | cons p ps ih =>
      intro acc ctx hnt
      cases hc1 : R1 p ctx with
      | ok v1 ctx1 =>
          have hc2 : R2 p ctx = .ok v1 ctx1 := (hR p ctx (by simp [hc1])).trans hc1
          simp only [seqLoop, hc1, hc2] at hnt ⊢
          by_cases hnn : v1.is_not_null = true
          · simp only [if_pos hnn] at hnt ⊢
            exact ih _ _ hnt
          · simp only [if_neg hnn]
      | fatal e =>
          have hc2 : R2 p ctx = .fatal e := (hR p ctx (by simp [hc1])).trans hc1
          simp only [seqLoop, hc1, hc2]
      | timeout =>
          exfalso
          apply hnt
          simp only [seqLoop, hc1]

theorem manyLoop_mono {R1 R2 : Parser → IndexableContext → PResult} (hR : Refines R1 R2)
    (c : Parser) :
    ∀ (fl1 fl2 : Nat), fl1 ≤ fl2 →
      ∀ (acc : List JSVal) (cur : Nat) (ctx : IndexableContext),
      manyLoop R1 c fl1 acc cur ctx ≠ .timeout →
      manyLoop R2 c fl2 acc cur ctx = manyLoop R1 c fl1 acc cur ctx := by
  intro fl1
  induction fl1 with
  | zero =>
      intro fl2 _ acc cur ctx hnt
      exact absurd rfl hnt
  | succ fl1 ih =>
      intro fl2 hle acc cur ctx hnt
      obtain ⟨fl2', rfl⟩ : ∃ fl2', fl2 = fl2' + 1 := ⟨fl2 - 1, by omega⟩
      cases hc1 : R1 c ctx with
      | ok v1 ctx1 =>
          have hc2 : R2 c ctx = .ok v1 ctx1 := (hR c ctx (by simp [hc1])).trans hc1
          simp only [manyLoop, hc1, hc2] at hnt ⊢
          by_cases hnn : v1.is_not_null = true
          · simp only [if_pos hnn] at hnt ⊢
            exact ih fl2' (by omega) _ _ _ hnt
          · simp only [if_neg hnn]
      | fatal e =>
          have hc2 : R2 c ctx = .fatal e := (hR c ctx (by simp [hc1])).trans hc1
          simp only [manyLoop, hc1, hc2]
      | timeout =>
          exfalso
          apply hnt
          simp only [manyLoop, hc1]

theorem parseStep_mono {R1 R2 : Parser → IndexableContext → PResult} (hR : Refines R1 R2)
    {fl1 fl2 : Nat} (hfl : fl1 ≤ fl2) :
    ∀ (p : Parser) (ctx : IndexableContext),
      parseStep R1 fl1 p ctx ≠ .timeout →
      parseStep R2 fl2 p ctx = parseStep R1 fl1 p ctx := by
  intro p
  cases p with
  | basic m => intro ctx _; rfl
  | onExit p =>
      intro ctx hnt
      exact hR p ctx (by simpa [parseStep] using hnt)
  | cutP p reason =>
      intro ctx hnt
      cases hc1 : R1 p ctx with
      | ok v1 ctx1 =>
          have hc2 : R2 p ctx = .ok v1 ctx1 := (hR p ctx (by simp [hc1])).trans hc1
          simp only [parseStep, hc1, hc2]
      | fatal e =>
          have hc2 : R2 p ctx = .fatal e := (hR p ctx (by simp [hc1])).trans hc1
          simp only [parseStep, hc1, hc2]
      | timeout =>
          exfalso
          apply hnt
          simp only [parseStep, hc1]
  | caching p =>
      intro ctx hnt
      cases hf : Cache.find ctx.cache (jsStringKey (.caching p)) with
      | none =>
          cases hrec1 : R1 p { ctx with
              cache := Cache.insert ctx.cache (jsStringKey (.caching p)) [] } with
          | ok v1 ctx1 =>
              have hrec2 := (hR p _ (by simp [hrec1])).trans hrec1
              simp only [parseStep, hf, hrec1, hrec2]
          | fatal e =>
              have hrec2 := (hR p _ (by simp [hrec1])).trans hrec1
              simp only [parseStep, hf, hrec1, hrec2]
          | timeout =>
              exfalso
              apply hnt
              simp only [parseStep, hf, hrec1]
      | some bucket =>
          cases hbf : Bucket.find bucket ctx.current_index with
          | none =>
              cases hrec1 : R1 p ctx with
              | ok v1 ctx1 =>
                  have hrec2 := (hR p _ (by simp [hrec1])).trans hrec1
                  simp only [parseStep, hf, hbf, hrec1, hrec2]
              | fatal e =>
                  have hrec2 := (hR p _ (by simp [hrec1])).trans hrec1
                  simp only [parseStep, hf, hbf, hrec1, hrec2]
              | timeout =>
                  exfalso
                  apply hnt
                  simp only [parseStep, hf, hbf, hrec1]
          | some ve =>
              obtain ⟨v0, e0⟩ := ve
              simp only [parseStep, hf, hbf]
  | guard p block =>
      intro ctx hnt
      by_cases hb : block ctx = true
      · simp only [parseStep, if_pos hb] at hnt ⊢
        exact hR p ctx hnt
      · simp only [parseStep, if_neg hb]
  | onFailure p =>
      intro ctx hnt
      exact hR p ctx (by simpa [parseStep] using hnt)
  | onSuccess p =>
      intro ctx hnt
      exact hR p ctx (by simpa [parseStep] using hnt)
  | onEnter p =>
      intro ctx hnt
      exact hR p ctx (by simpa [parseStep] using hnt)
  | affirm p =>
      intro ctx hnt
      cases hc1 : R1 p ctx with
      | ok v1 ctx1 =>
          have hc2 := (hR p ctx (by simp [hc1])).trans hc1
          simp only [parseStep, hc1, hc2]
      | fatal e =>
          have hc2 := (hR p ctx (by simp [hc1])).trans hc1
          simp only [parseStep, hc1, hc2]
      | timeout =>
          exfalso
          apply hnt
          simp only [parseStep, hc1]
  | deny p =>
      intro ctx hnt
      cases hc1 : R1 p ctx with
      | ok v1 ctx1 =>
          have hc2 := (hR p ctx (by simp [hc1])).trans hc1
          simp only [parseStep, hc1, hc2]
      | fatal e =>
          have hc2 := (hR p ctx (by simp [hc1])).trans hc1
          simp only [parseStep, hc1, hc2]
      | timeout =>
          exfalso
          apply hnt
          simp only [parseStep, hc1]
  | alternation ps =>
      intro ctx hnt
      simp only [parseStep] at hnt ⊢
      exact altLoop_mono hR ps .null ctx.current_index ctx hnt
  | sequence ps =>
      intro ctx hnt
      simp only [parseStep] at hnt ⊢
      exact seqLoop_mono hR ps [] ctx hnt
  | transform p t =>
      intro ctx hnt
      cases hc1 : R1 p ctx with
      | ok v1 ctx1 =>
          have hc2 := (hR p ctx (by simp [hc1])).trans hc1
          simp only [parseStep, hc1, hc2]
      | fatal e =>
          have hc2 := (hR p ctx (by simp [hc1])).trans hc1
          simp only [parseStep, hc1, hc2]
      | timeout =>
          exfalso
          apply hnt
          simp only [parseStep, hc1]
  | many p =>
      intro ctx hnt
      cases hc1 : R1 p ctx with
      | ok v1 ctx1 =>
          have hc2 := (hR p ctx (by simp [hc1])).trans hc1
          simp only [parseStep, hc1, hc2] at hnt ⊢
          by_cases hnn : v1.is_not_null = true
          · simp only [if_pos hnn] at hnt ⊢
            exact manyLoop_mono hR p fl1 fl2 hfl _ _ _ hnt
          · simp only [if_neg hnn]
      | fatal e =>
          have hc2 := (hR p ctx (by simp [hc1])).trans hc1
          simp only [parseStep, hc1, hc2]
      | timeout =>
          exfalso
          apply hnt
          simp only [parseStep, hc1]
  | optionalP p =>
      intro ctx hnt
      cases hc1 : R1 p ctx with
      | ok v1 ctx1 =>
          have hc2 := (hR p ctx (by simp [hc1])).trans hc1
          simp only [parseStep, hc1, hc2]
      | fatal e =>
          have hc2 := (hR p ctx (by simp [hc1])).trans hc1
          simp only [parseStep, hc1, hc2]
      | timeout =>
          exfalso
          apply hnt
          simp only [parseStep, hc1]
  | kleene p =>
      intro ctx hnt
      exact hR _ ctx (by simpa [parseStep] using hnt)
  | delayed producer =>
      intro ctx hnt
      exact hR _ ctx (by simpa [parseStep] using hnt)

theorem parse_refines : ∀ (f f' : Nat), f ≤ f' → Refines (parse f) (parse f') := by
  intro f
  induction f with
  | zero =>
      intro f' _ p ctx hnt
      exact absurd rfl hnt
  | succ f ih =>
      intro f' hle p ctx hnt
      obtain ⟨f'', rfl⟩ : ∃ f'', f' = f'' + 1 := ⟨f' - 1, by omega⟩
      exact parseStep_mono (ih f'' (by omega)) (by omega) p ctx hnt

/-- Fuel monotonicity: a completed run is stable under extra fuel. -/
theorem parse_mono {f f' : Nat} {p : Parser} {ctx : IndexableContext}
    (hle : f ≤ f') (hnt : parse f p ctx ≠ .timeout) :
    parse f' p ctx = parse f p ctx :=
  parse_refines f f' hle p ctx hnt

/-! ## Concrete matchers and inputs used by the concrete theorems -/

theorem is_null_eq_false {v : JSVal} (h : v.is_not_null = true) : v.is_null = false := by
  cases v <;> simp_all [JSVal.is_not_null, JSVal.is_null]

theorem eqNull_iff {v : JSVal} : v.eqNull = true ↔ v = .null := by
  cases v <;> simp [JSVal.eqNull]

/-- C5: Match primitive contract.  If the current element is present (the
end-of-input sentinel and JS absent values count as missing) and the
predicate accepts it, `BasicParser.parse` returns that element and advances
by exactly one; if the predicate rejects it, or no element is present —
in particular at the `undefined` end-of-input sentinel — it returns the
failure value and the context (hence the cursor position) is unchanged. -/
theorem basic_match_contract (m : JSVal → Bool) (ctx : IndexableContext) (f : Nat) :
    (ctx.current_element.is_not_null = true → m ctx.current_element = true →
        parse (f + 1) (.basic m) ctx = .ok ctx.current_element ctx.advance ∧
          ctx.advance.current_index = ctx.current_index + 1) ∧
    (ctx.current_element.is_not_null = true → m ctx.current_element = false →
        parse (f + 1) (.basic m) ctx = .ok .null ctx) ∧
    (ctx.current_element.is_not_null = false →
        parse (f + 1) (.basic m) ctx = .ok .null ctx) ∧
    (ctx.current_element = .undef →
        parse (f + 1) (.basic m) ctx = .ok .null ctx) := by
  refine ⟨fun h1 h2 => ⟨?_, rfl⟩, fun h1 h2 => ?_, fun h1 => ?_, fun h1 => ?_⟩
  · show parseStep (parse f) f (.basic m) ctx = _
    simp only [parseStep, h1, h2, Bool.and_self, if_true]
  · show parseStep (parse f) f (.basic m) ctx = _
    simp only [parseStep, h1, h2, Bool.and_false, Bool.false_eq_true, if_false]
  · show parseStep (parse f) f (.basic m) ctx = _
    simp only [parseStep, h1, Bool.false_and, Bool.false_eq_true, if_false]
  · show parseStep (parse f) f (.basic m) ctx = _
    simp only [parseStep, h1]
    rfl

theorem basic_match_contract_witness :
    parse 1 (.basic matchA) (IndexableContext.mk0 [.str "a"]) =
      .ok (.str "a") ((IndexableContext.mk0 [.str "a"]).advance) ∧
    parse 1 (.basic matchB) (IndexableContext.mk0 [.str "a"]) =
      .ok .null (IndexableContext.mk0 [.str "a"]) :=
  ⟨((basic_match_contract matchA (IndexableContext.mk0 [.str "a"]) 0).1 rfl rfl).1,
    (basic_match_contract matchB (IndexableContext.mk0 [.str "a"]) 0).2.1 rfl rfl⟩

/-- C1 (code bug): the memo table is *not* keyed by the wrapping node's
identity.  `input.cache[this]` coerces every parser object to the property
key `"[object Object]"`, so two distinct memoized nodes share one bucket:
on input `"b"`, `Match(a).cache() | Match(b).cache()` fails (the second
cached node replays the first node's stored failure at position 0), while
the unwrapped `Match(a) | Match(b)` succeeds with `"b"` ending at 1, so
memoization is not transparent. -/
theorem caching_key_collision_bug :
    (parse_input 5 (.alternation [.caching (.basic matchA), .caching (.basic matchB)])
        [.str "b"]).result? = some .null ∧
    (parse_input 5 (.alternation [.caching (.basic matchA), .caching (.basic matchB)])
        [.str "b"]).index? = some 0 ∧
    (parse_input 5 (.alternation [.basic matchA, .basic matchB])
        [.str "b"]).result? = some (.str "b") ∧
    (parse_input 5 (.alternation [.basic matchA, .basic matchB])
        [.str "b"]).index? = some 1 ∧
    jsStringKey (.caching (.basic matchA)) = jsStringKey (.caching (.basic matchB)) :=
  ⟨rfl, rfl, rfl, rfl, rfl⟩

/-- C6 (code bug): `PositiveLookaheadParser.parse` tests the child's result
with bare JS truthiness (`if (result)`) instead of the engine's documented
`is_not_null` failure convention.  On input `[0]`, the child `Match(x=0)`
succeeds returning the element `0` (a present value, ending at 1), yet the
lookahead returns the failure value `null` and leaves the cursor at 1
instead of resetting to 0 and returning the child's result. -/
theorem affirm_truthiness_bug :
    (parse_input 2 (.basic matchZero) [.num 0]).result? = some (.num 0) ∧
    (parse_input 2 (.basic matchZero) [.num 0]).index? = some 1 ∧
    JSVal.is_not_null (.num 0) = true ∧
    (parse_input 3 (.affirm (.basic matchZero)) [.num 0]).result? = some .null ∧
    (parse_input 3 (.affirm (.basic matchZero)) [.num 0]).index? = some 1 :=
  ⟨rfl, rfl, rfl, rfl, rfl⟩

/-- C7 counterexample: `CutParser.parse` tests `result !== null`, not
`is_not_null`, so a child returning `undefined` — an absent value, i.e. a
failure under the engine's convention — still places a cut. -/
theorem cutP_undefined_places_cut :
    (parse_input 3 (.cutP (.transform (.basic matchA) (fun _ => .undef)) "r")
        [.str "a"]).result? = some .undef ∧
    JSVal.is_not_null .undef = false ∧
    (parse_input 3 (.cutP (.transform (.basic matchA) (fun _ => .undef)) "r")
        [.str "a"]).cutPoint? = some (some 1) :=
  ⟨rfl, rfl, rfl⟩

/-- C7 (amended): the Cut combinator places a cut — at the cursor's
position after the child, recording the given reason — if and only if the
child's result is not `null`; a result of `undefined` (which the engine
otherwise treats as failure) therefore also places a cut.  In both cases
the child's result is returned unchanged. -/
theorem cutP_places_cut_iff_not_null (f : Nat) (p : Parser) (reason : String)
    (ctx : IndexableContext) (v : JSVal) (σ : IndexableContext)
    (h : parse f p ctx = .ok v σ) :
    (v = .null → parse (f + 1) (.cutP p reason) ctx = .ok v σ) ∧
    (v ≠ .null →
        parse (f + 1) (.cutP p reason) ctx = .ok v (σ.cut reason) ∧
          (σ.cut reason).cut_point = some σ.current_index) := by
  constructor
  · intro hv
    show parseStep (parse f) f (.cutP p reason) ctx = _
    simp only [parseStep, h]
    rw [if_pos (eqNull_iff.mpr hv)]
  · intro hv
    refine ⟨?_, rfl⟩
    show parseStep (parse f) f (.cutP p reason) ctx = _
    simp only [parseStep, h]
    rw [if_neg (fun he => hv (eqNull_iff.mp he))]

theorem cutP_places_cut_iff_not_null_witness :
    parse 2 (.cutP (.basic matchA) "r") (IndexableContext.mk0 [.str "a"]) =
      .ok (.str "a") (((IndexableContext.mk0 [.str "a"]).advance).cut "r") ∧
    parse 2 (.cutP (.basic matchB) "r") (IndexableContext.mk0 [.str "a"]) =
      .ok .null (IndexableContext.mk0 [.str "a"]) :=
  ⟨((cutP_places_cut_iff_not_null 1 (.basic matchA) "r" (IndexableContext.mk0 [.str "a"])
      (.str "a") ((IndexableContext.mk0 [.str "a"]).advance) rfl).2
      (fun hh => JSVal.noConfusion hh)).1,
    (cutP_places_cut_iff_not_null 1 (.basic matchB) "r" (IndexableContext.mk0 [.str "a"])
      .null (IndexableContext.mk0 [.str "a"]) rfl).1 rfl⟩

/-- C8 counterexample: the optional combinator *can* raise an error.  When
the child places a cut and then fails, the optional's reset to the
pre-attempt position crosses the cut point and aborts with the fatal
commitment violation: here `(A.cut | then B)?` on `"a"`. -/
theorem optional_raises_cut_violation :
    parse_input 5 (.optionalP (.sequence [.cutP (.basic matchA) "committed", .basic matchB]))
        [.str "a"] = .fatal ⟨1, some "committed", 0⟩ :=
  rfl

/-- C8 (amended): the optional combinator never produces an ordinary parse
failure: every normal return carries a present value — the child's result
with the cursor where the child left it on success, and an empty (but
present) result after resetting to the pre-attempt position on child
failure.  The one exception is not an ordinary failure: when that reset
(or the child itself) crosses an active cut point, the fatal commitment
violation propagates. -/
theorem optional_never_fails (f : Nat) (p : Parser) (ctx : IndexableContext) :
    (∀ v σ, parse (f + 1) (.optionalP p) ctx = .ok v σ → v.is_not_null = true) ∧
    (∀ v σ, parse f p ctx = .ok v σ → v.is_not_null = true →
        parse (f + 1) (.optionalP p) ctx = .ok v σ) ∧
    (∀ v σ, parse f p ctx = .ok v σ → v.is_null = true →
        parse (f + 1) (.optionalP p) ctx =
          (match σ.reset ctx.current_index with
            | .ok σ' => .ok (.arr []) σ'
            | .error e => .fatal e)) := by
  refine ⟨?_, ?_, ?_⟩
  · intro v σ h
    replace h : parseStep (parse f) f (.optionalP p) ctx = .ok v σ := h
    cases hrec : parse f p ctx with
    | ok v1 ctx1 =>
        simp only [parseStep, hrec] at h
        by_cases hnn : v1.is_not_null = true
        · rw [if_pos hnn] at h
          injection h with h1 h2
          subst h1
          exact hnn
        · rw [if_neg hnn] at h
          cases hr : ctx1.reset ctx.current_index with
          | ok ctx2 =>
              simp only [hr] at h
              injection h with h1 h2
              subst h1
              rfl
          | error e =>
              simp only [hr] at h
              exact absurd h (by simp)
    | fatal e =>
        simp only [parseStep, hrec] at h
        exact absurd h (by simp)
    | timeout =>
        simp only [parseStep, hrec] at h
        exact absurd h (by simp)
  · intro v σ h hnn
    show parseStep (parse f) f (.optionalP p) ctx = _
    simp only [parseStep, h]
    rw [if_pos hnn]
  · intro v σ h hnull
    show parseStep (parse f) f (.optionalP p) ctx = _
    simp only [parseStep, h]
    rw [if_neg (by simp [JSVal.is_not_null, hnull])]

theorem optional_never_fails_witness :
    parse 2 (.optionalP (.basic matchA)) (IndexableContext.mk0 [.str "a"]) =
      .ok (.str "a") ((IndexableContext.mk0 [.str "a"]).advance) ∧
    parse 2 (.optionalP (.basic matchB)) (IndexableContext.mk0 [.str "a"]) =
      .ok (.arr []) (IndexableContext.mk0 [.str "a"]) :=
  ⟨(optional_never_fails 1 (.basic matchA) (IndexableContext.mk0 [.str "a"])).2.1
      (.str "a") ((IndexableContext.mk0 [.str "a"]).advance) rfl rfl,
    (optional_never_fails 1 (.basic matchB) (IndexableContext.mk0 [.str "a"])).2.2
      .null (IndexableContext.mk0 [.str "a"]) rfl rfl⟩

/-- C9: cut-point monotonicity.  Starting from any context whose position
is at or beyond its cut point (as every fresh context is), a normal parse
run ends in a context with the same property, the cut point never having
moved backward; and placing a cut sets the cut point to the current
position, which restates or tightens (never loosens) the commitment. -/
theorem cut_point_monotonic (f : Nat) (p : Parser) (ctx : IndexableContext)
    (v : JSVal) (ctx' : IndexableContext)
    (hinv : CutInv ctx) (h : parse f p ctx = .ok v ctx') :
    CutInv ctx' ∧ cutLE ctx.cut_point ctx'.cut_point ∧
      ∀ reason, (ctx'.cut reason).cut_point = some ctx'.current_index ∧
        cutLE ctx'.cut_point ((ctx'.cut reason)).cut_point := by
  obtain ⟨hinv', hle⟩ := (parse_pres f p ctx v ctx' h).2.2.1 hinv
  exact ⟨hinv', hle, fun reason =>
    ⟨rfl, fun c hc => ⟨ctx'.current_index, rfl, hinv' c hc⟩⟩⟩

theorem cut_point_monotonic_witness :
    CutInv (((IndexableContext.mk0 [.str "a"]).advance).cut "r") ∧
      cutLE (IndexableContext.mk0 [.str "a"]).cut_point
        ((((IndexableContext.mk0 [.str "a"]).advance).cut "r")).cut_point ∧
      ∀ reason,
        (((((IndexableContext.mk0 [.str "a"]).advance).cut "r")).cut reason).cut_point =
          some ((((IndexableContext.mk0 [.str "a"]).advance).cut "r")).current_index ∧
        cutLE ((((IndexableContext.mk0 [.str "a"]).advance).cut "r")).cut_point
          (((((IndexableContext.mk0 [.str "a"]).advance).cut "r")).cut reason).cut_point :=
  cut_point_monotonic 2 (.cutP (.basic matchA) "r") (IndexableContext.mk0 [.str "a"])
    (.str "a") (((IndexableContext.mk0 [.str "a"]).advance).cut "r")
    (fun _c hc => Option.noConfusion hc) rfl

/-- Resetting a well-formed context to its own position is a no-op. -/
theorem reset_self {σ : IndexableContext} (hsync : Sync σ) (hinv : CutInv σ) :
    σ.reset σ.current_index = .ok σ := by
  cases hr : σ.reset σ.current_index with
  | ok σ' =>
      obtain ⟨hin, hidx, hel, hca, hcp, hcr, _⟩ := reset_ok hr
      have hσ : σ' = σ := by
        obtain ⟨i', x', e', c', p', r'⟩ := σ'
        obtain ⟨i, x, e, c, p, r⟩ := σ
        have hs : e = jsIndex i x := hsync
        simp_all
      rw [hσ]
  | error e =>
      exfalso
      unfold IndexableContext.reset at hr
      split at hr
      next c hcp =>
        split at hr
        next hlt =>
          have := hinv c hcp
          omega
        next => exact Except.noConfusion hr
      next => exact Except.noConfusion hr

theorem failChain_is_null {R : Parser → IndexableContext → PResult} {start : Nat}
    {ps : List Parser} {res w : JSVal} {σ σf : IndexableContext}
    (h : FailChain R start ps res σ w σf) (hres : res.is_null = true) :
    w.is_null = true := by
  induction h with
  | nil res σ => exact hres
  | cons hr hp hv tail ih => exact ih hv

theorem altLoop_of_failChain {R : Parser → IndexableContext → PResult} {start : Nat}
    {ps : List Parser} {res w : JSVal} {σ σf : IndexableContext}
    (h : FailChain R start ps res σ w σf) :
    altLoop R ps res start σ = .ok w σf := by
  induction h with
  | nil res σ => rfl
  | cons hr hp hv tail ih =>
      simp only [altLoop, hr, hp, if_pos hv]
      exact ih

theorem altLoop_first_success {R : Parser → IndexableContext → PResult} {start : Nat}
    {ps1 : List Parser} {res w : JSVal} {σ σf : IndexableContext}
    (h : FailChain R start ps1 res σ w σf) :
    ∀ {q : Parser} (ps2 : List Parser) {σr : IndexableContext} {v : JSVal}
      {σq : IndexableContext},
      σf.reset start = .ok σr → R q σr = .ok v σq → v.is_not_null = true →
      altLoop R (ps1 ++ q :: ps2) res start σ = .ok v σq := by
  induction h with
  | nil res σ =>
      intro q ps2 σr v σq hr hq hv
      simp only [List.nil_append, altLoop, hr, hq]
      rw [if_neg (by simp [is_null_eq_false hv])]
  | cons hr' hp' hv' tail ih =>
      intro q ps2 σr v σq hr hq hv
      simp only [List.cons_append, altLoop, hr', hp', if_pos hv']
      exact ih ps2 hr hq hv

/-- C3: alternation is ordered choice.  Before every attempt — the first
included — the cursor is reset to the alternation's starting position; the
first child whose (threaded) attempt returns a present value determines the
alternation's result, with the cursor exactly where that child left it, and
the children after it are never consulted; if every child fails, the
alternation returns the last failure value (an absent value) with the
cursor where the last child left it. -/
theorem alternation_ordered_choice (f : Nat) (ctx : IndexableContext) :
    (∀ (ps1 : List Parser) (q : Parser) (ps2 : List Parser) (w : JSVal)
        (σf σr : IndexableContext) (v : JSVal) (σq : IndexableContext),
        FailChain (parse f) ctx.current_index ps1 .null ctx w σf →
        σf.reset ctx.current_index = .ok σr →
        parse f q σr = .ok v σq → v.is_not_null = true →
        parse (f + 1) (.alternation (ps1 ++ q :: ps2)) ctx = .ok v σq) ∧
    (∀ (ps : List Parser) (w : JSVal) (σf : IndexableContext),
        FailChain (parse f) ctx.current_index ps .null ctx w σf →
        parse (f + 1) (.alternation ps) ctx = .ok w σf ∧ w.is_null = true) := by
  constructor
  · intro ps1 q ps2 w σf σr v σq hchain hr hq hv
    show parseStep (parse f) f (.alternation (ps1 ++ q :: ps2)) ctx = _
    simp only [parseStep]
    exact altLoop_first_success hchain ps2 hr hq hv
  · intro ps w σf hchain
    refine ⟨?_, failChain_is_null hchain rfl⟩
    show parseStep (parse f) f (.alternation ps) ctx = _
    simp only [parseStep]
    exact altLoop_of_failChain hchain

theorem alternation_ordered_choice_witness :
    parse 6 (.alternation [.basic matchA, .basic matchB]) (IndexableContext.mk0 [.str "b"]) =
      .ok (.str "b") ((IndexableContext.mk0 [.str "b"]).advance) ∧
    parse 6 (.alternation [.basic matchB]) (IndexableContext.mk0 [.str "a"]) =
      .ok .null (IndexableContext.mk0 [.str "a"]) :=
  ⟨(alternation_ordered_choice 5 (IndexableContext.mk0 [.str "b"])).1
      [.basic matchA] (.basic matchB) [] .null (IndexableContext.mk0 [.str "b"])
      (IndexableContext.mk0 [.str "b"]) (.str "b")
      ((IndexableContext.mk0 [.str "b"]).advance)
      (FailChain.cons rfl rfl rfl (FailChain.nil _ _)) rfl rfl rfl,
    ((alternation_ordered_choice 5 (IndexableContext.mk0 [.str "a"])).2
      [.basic matchB] .null (IndexableContext.mk0 [.str "a"])
      (FailChain.cons rfl rfl rfl (FailChain.nil _ _))).1⟩

theorem seqLoop_of_seqChain {R : Parser → IndexableContext → PResult}
    {ps : List Parser} {σ σf : IndexableContext} {vs : List JSVal}
    (h : SeqChain R ps σ vs σf) :
    ∀ acc, seqLoop R ps acc σ = .ok (.arr (acc ++ vs)) σf := by
  induction h with
  | nil σ =>
      intro acc
      simp only [seqLoop, List.append_nil]
  | cons hp hv tail ih =>
      intro acc
      simp only [seqLoop, hp, if_pos hv]
      rw [ih (acc ++ [_])]
      simp

theorem seqLoop_fail {R : Parser → IndexableContext → PResult}
    {ps1 : List Parser} {σ σm : IndexableContext} {vs : List JSVal}
    (h : SeqChain R ps1 σ vs σm) :
    ∀ {q : Parser} (ps2 : List Parser) {v : JSVal} {σv : IndexableContext} (acc : List JSVal),
      R q σm = .ok v σv → v.is_not_null = false →
      seqLoop R (ps1 ++ q :: ps2) acc σ = .ok .null σv := by
  induction h with
  | nil σ =>
      intro q ps2 v σv acc hq hv
      simp only [List.nil_append, seqLoop, hq]
      rw [if_neg (by simp [hv])]
  | cons hp hvp tail ih =>
      intro q ps2 v σv acc hq hv
      simp only [List.cons_append, seqLoop, hp, if_pos hvp]
      exact ih ps2 _ hq hv

/-- C4: sequence failure does not rewind.  The children run left to right
over the same advancing cursor with no reset between them; if every child
succeeds the result is the ordered list of the children's results with the
cursor where the last child stopped, and if some child fails the whole
sequence immediately returns the failure value with the cursor exactly
where the failing child left it — not restored to the sequence's start. -/
theorem sequence_no_rewind (f : Nat) (ctx : IndexableContext) :
    (∀ (ps : List Parser) (vs : List JSVal) (σf : IndexableContext),
        SeqChain (parse f) ps ctx vs σf →
        parse (f + 1) (.sequence ps) ctx = .ok (.arr vs) σf) ∧
    (∀ (ps1 : List Parser) (q : Parser) (ps2 : List Parser) (vs : List JSVal)
        (σm : IndexableContext) (v : JSVal) (σv : IndexableContext),
        SeqChain (parse f) ps1 ctx vs σm →
        parse f q σm = .ok v σv → v.is_not_null = false →
        parse (f + 1) (.sequence (ps1 ++ q :: ps2)) ctx = .ok .null σv) := by
  constructor
  · intro ps vs σf hchain
    show parseStep (parse f) f (.sequence ps) ctx = _
    simp only [parseStep]
    have := seqLoop_of_seqChain hchain []
    simpa using this
  · intro ps1 q ps2 vs σm v σv hchain hq hv
    show parseStep (parse f) f (.sequence (ps1 ++ q :: ps2)) ctx = _
    simp only [parseStep]
    exact seqLoop_fail hchain ps2 [] hq hv

theorem sequence_no_rewind_witness :
    parse 6 (.sequence [.basic matchA, .basic matchB]) (IndexableContext.mk0 [.str "a"]) =
      .ok .null ((IndexableContext.mk0 [.str "a"]).advance) ∧
    parse 6 (.sequence [.basic matchA]) (IndexableContext.mk0 [.str "a"]) =
      .ok (.arr [.str "a"]) ((IndexableContext.mk0 [.str "a"]).advance) :=
  ⟨(sequence_no_rewind 5 (IndexableContext.mk0 [.str "a"])).2
      [.basic matchA] (.basic matchB) [] [.str "a"]
      ((IndexableContext.mk0 [.str "a"]).advance) .null
      ((IndexableContext.mk0 [.str "a"]).advance)
      (SeqChain.cons rfl rfl (SeqChain.nil _)) rfl rfl,
    (sequence_no_rewind 5 (IndexableContext.mk0 [.str "a"])).1
      [.basic matchA] [.str "a"] ((IndexableContext.mk0 [.str "a"]).advance)
      (SeqChain.cons rfl rfl (SeqChain.nil _))⟩

/-- C2: cut enforcement.  If a Cut-wrapped parser succeeds leaving the
cursor at position `k`, the cut point is `k`; from then on, after any
further parsing, resetting the cursor to any `j < k` does not return an
ordinary failure but throws the fatal commitment violation, carrying the
active cut point (still at or beyond `k`) and the recorded cut reason; and
such a fatal abort inside a child of an alternation is returned by the
alternation as-is, not absorbed into trying the next alternative. -/
theorem cut_enforcement (f : Nat) (p : Parser) (reason : String)
    (ctx : IndexableContext) (v : JSVal) (σk : IndexableContext)
    (hsync : Sync ctx) (hinv : CutInv ctx)
    (h : parse f (.cutP p reason) ctx = .ok v σk) (hv : v.is_not_null = true) :
    σk.cut_point = some σk.current_index ∧
    (∀ (q : Parser) (f' : Nat) (v' : JSVal) (σ' : IndexableContext),
        parse f' q σk = .ok v' σ' →
        ∀ j, j < σk.current_index →
          ∃ c, σk.current_index ≤ c ∧
            σ'.reset j = .error ⟨c, σ'.cut_reason, j⟩) ∧
    (∀ (q : Parser) (f' : Nat) (v' : JSVal) (σ' : IndexableContext),
        parse f' q σk = .ok v' σ' →
        ∀ (q' : Parser) (qs : List Parser) (f2 : Nat) (e : CutViolation),
          parse f2 q' σ' = .fatal e →
          parse (f2 + 1) (.alternation (q' :: qs)) σ' = .fatal e) := by
  have hcut : σk.cut_point = some σk.current_index := by
    cases f with
    | zero => exact absurd h (by simp [parse])
    | succ g =>
        replace h : parseStep (parse g) g (.cutP p reason) ctx = .ok v σk := h
        cases hrec : parse g p ctx with
        | ok v1 ctx1 =>
            simp only [parseStep, hrec] at h
            by_cases he : v1.eqNull = true
            · rw [if_pos he] at h
              injection h with h1 h2
              subst h1
              rw [eqNull_iff.mp he] at hv
              exact absurd hv (by simp [JSVal.is_not_null, JSVal.is_null])
            · rw [if_neg he] at h
              injection h with h1 h2
              subst h2
              rfl
        | fatal e =>
            simp only [parseStep, hrec] at h
            exact absurd h (by simp)
        | timeout =>
            simp only [parseStep, hrec] at h
            exact absurd h (by simp)
  have hpres := parse_pres f (.cutP p reason) ctx v σk h
  have hsynck : Sync σk := hpres.2.1 hsync
  have hinvk : CutInv σk := (hpres.2.2.1 hinv).1
  refine ⟨hcut, ?_, ?_⟩
  · intro q f' v' σ' h' j hj
    have hpres' := parse_pres f' q σk v' σ' h'
    obtain ⟨_, hle⟩ := hpres'.2.2.1 hinvk
    obtain ⟨c, hc, hkc⟩ := hle σk.current_index hcut
    exact ⟨c, hkc, reset_error hc (by omega)⟩
  · intro q f' v' σ' h' q' qs f2 e hfatal
    have hpres' := parse_pres f' q σk v' σ' h'
    have hsync' : Sync σ' := hpres'.2.1 hsynck
    have hinv' : CutInv σ' := (hpres'.2.2.1 hinvk).1
    show parseStep (parse f2) f2 (.alternation (q' :: qs)) σ' = _
    simp only [parseStep, altLoop, reset_self hsync' hinv', hfatal]

theorem cut_enforcement_witness :
    ((((IndexableContext.mk0 [.str "a", .str "b"]).advance).cut "r")).cut_point =
      some ((((IndexableContext.mk0 [.str "a", .str "b"]).advance).cut "r")).current_index ∧
    parse 5
        (.alternation [.optionalP (.sequence [.cutP (.basic matchB) "r2", .basic matchB])])
        ((((IndexableContext.mk0 [.str "a", .str "b"]).advance).cut "r")) =
      .fatal ⟨2, some "r2", 1⟩ := by
  have hthm := cut_enforcement 2 (.basic matchA) "r"
    (IndexableContext.mk0 [.str "a", .str "b"]) (.str "a")
    ((((IndexableContext.mk0 [.str "a", .str "b"]).advance).cut "r"))
    rfl (fun c hc => Option.noConfusion hc) rfl rfl
  refine ⟨hthm.1, ?_⟩
  exact hthm.2.2 (.guard (.basic matchA) (fun _ => false)) 1 .null
    ((((IndexableContext.mk0 [.str "a", .str "b"]).advance).cut "r")) rfl
    (.optionalP (.sequence [.cutP (.basic matchB) "r2", .basic matchB])) [] 4
    ⟨2, some "r2", 1⟩ rfl

/-! ## One-or-more repetition: termination under strict progress (C10) -/

theorem is_null_of_not_is_not_null {v : JSVal} (h : ¬v.is_not_null = true) :
    v.is_null = true := by
  cases hv : v.is_null with
  | true => rfl
  | false => exact absurd (by simp [JSVal.is_not_null, hv]) h

/-- Inversion for the Match primitive. -/
theorem basic_ok_inv {m : JSVal → Bool} {σ : IndexableContext} {f : Nat} {v : JSVal}
    {σ' : IndexableContext} (h : parse f (.basic m) σ = .ok v σ') :
    (v = σ.current_element ∧ σ' = σ.advance ∧
        (σ.current_element.is_not_null && m σ.current_element) = true) ∨
    (v = .null ∧ σ' = σ) := by
  cases f with
  | zero => exact absurd h (by simp [parse])
  | succ g =>
      replace h : parseStep (parse g) g (.basic m) σ = .ok v σ' := h
      by_cases hc : (σ.current_element.is_not_null && m σ.current_element) = true
      · simp only [parseStep, if_pos hc] at h
        injection h with h1 h2
        exact Or.inl ⟨h1.symm, h2.symm, hc⟩
      · simp only [parseStep, if_neg hc] at h
        injection h with h1 h2
        exact Or.inr ⟨h1.symm, h2.symm⟩

/-- Inversion for the Cut combinator. -/
theorem cutP_ok_inv {p : Parser} {r : String} {σ : IndexableContext} {f : Nat}
    {v : JSVal} {σ' : IndexableContext} (h : parse f (.cutP p r) σ = .ok v σ') :
    ∃ g σ1, f = g + 1 ∧ parse g p σ = .ok v σ1 ∧
      ((v = .null ∧ σ' = σ1) ∨ (v ≠ .null ∧ σ' = σ1.cut r)) := by
  cases f with
  | zero => exact absurd h (by simp [parse])
  | succ g =>
      replace h : parseStep (parse g) g (.cutP p r) σ = .ok v σ' := h
      cases hrec : parse g p σ with
      | ok v1 σ1 =>
          simp only [parseStep, hrec] at h
          by_cases he : v1.eqNull = true
          · rw [if_pos he] at h
            injection h with h1 h2
            subst h1
            exact ⟨g, σ1, rfl, hrec, Or.inl ⟨eqNull_iff.mp he, h2.symm⟩⟩
          · rw [if_neg he] at h
            injection h with h1 h2
            subst h1
            exact ⟨g, σ1, rfl, hrec, Or.inr ⟨fun hn => he (eqNull_iff.mpr hn), h2.symm⟩⟩
      | fatal e =>
          simp only [parseStep, hrec] at h
          exact absurd h (by simp)
      | timeout =>
          simp only [parseStep, hrec] at h
          exact absurd h (by simp)

/-- Inversion for a two-element sequence that returns a present value. -/
theorem seq2_ok_inv {p1 p2 : Parser} {σ : IndexableContext} {f : Nat} {v : JSVal}
    {σ' : IndexableContext} (h : parse f (.sequence [p1, p2]) σ = .ok v σ')
    (hv : v.is_not_null = true) :
    ∃ g v1 σ1 v2 σ2, f = g + 1 ∧ parse g p1 σ = .ok v1 σ1 ∧ v1.is_not_null = true ∧
      parse g p2 σ1 = .ok v2 σ2 ∧ v2.is_not_null = true ∧ σ' = σ2 := by
  cases f with
  | zero => exact absurd h (by simp [parse])
  | succ g =>
      replace h : parseStep (parse g) g (.sequence [p1, p2]) σ = .ok v σ' := h
      simp only [parseStep] at h
      cases hr1 : parse g p1 σ with
      | ok v1 σ1 =>
          simp only [seqLoop, hr1] at h
          by_cases h1 : v1.is_not_null = true
          · rw [if_pos h1] at h
            cases hr2 : parse g p2 σ1 with
            | ok v2 σ2 =>
                simp only [hr2] at h
                by_cases h2 : v2.is_not_null = true
                · rw [if_pos h2] at h
                  injection h with hv2 hσ2
                  exact ⟨g, v1, σ1, v2, σ2, rfl, hr1, h1, hr2, h2, hσ2.symm⟩
                · rw [if_neg h2] at h
                  injection h with hv2 hσ2
                  rw [← hv2] at hv
                  exact absurd hv (by decide)
            | fatal e =>
                simp only [hr2] at h
                exact absurd h (by simp)
            | timeout =>
                simp only [hr2] at h
                exact absurd h (by simp)
          · rw [if_neg h1] at h
            injection h with hv1 hσ1
            rw [← hv1] at hv
            exact absurd hv (by decide)
      | fatal e =>
          simp only [seqLoop, hr1] at h
          exact absurd h (by simp)
      | timeout =>
          simp only [seqLoop, hr1] at h
          exact absurd h (by simp)

/-- The child `Match(a).cut("r") then Match(b)` strictly advances the
cursor (by two) on every success, from every context. -/
theorem cutSeqStrictProgress :
    ∀ (σ : IndexableContext) (f : Nat) (v : JSVal) (σ' : IndexableContext),
      parse f (.sequence [.cutP (.basic matchA) "r", .basic matchB]) σ = .ok v σ' →
      v.is_not_null = true → σ.current_index < σ'.current_index := by
  intro σ f v σ' h hv
  obtain ⟨g, v1, σ1, v2, σ2, rfl, h1, hnn1, h2, hnn2, rfl⟩ := seq2_ok_inv h hv
  obtain ⟨g1, σ1a, rfl, hb1, hcase⟩ := cutP_ok_inv h1
  rcases basic_ok_inv hb1 with ⟨hv1, hσ1a, _⟩ | ⟨hv1, _⟩
  · have hidx1 : σ1.current_index = σ.current_index + 1 := by
      rcases hcase with ⟨hnull, _⟩ | ⟨_, hσ1⟩
      · rw [hnull] at hnn1
        exact absurd hnn1 (by decide)
      · rw [hσ1, hσ1a]
        rfl
    rcases basic_ok_inv h2 with ⟨hv2, hσ2, _⟩ | ⟨hv2, _⟩
    · rw [hσ2]
      show σ.current_index < σ1.current_index + 1
      omega
    · rw [hv2] at hnn2
      exact absurd hnn2 (by decide)
  · rw [hv1] at hnn1
    exact absurd hnn1 (by decide)

theorem manyLoop_of_trace {c : Parser} {σ : IndexableContext} {vs : List JSVal}
    {σL σF : IndexableContext} (ht : ManyTrace c σ vs σL σF) :
    ∃ F0, ∀ F fl acc, F0 ≤ F → vs.length < fl →
      manyLoop (parse F) c fl acc σ.current_index σ =
        (match σF.reset σL.current_index with
          | .ok σR => .ok (.arr (acc ++ vs)) σR
          | .error e => .fatal e) := by
  induction ht with
  | @fail σ0 σ' v f h hv =>
      refine ⟨f, fun F fl acc hF hfl => ?_⟩
      obtain ⟨fl', rfl⟩ : ∃ fl', fl = fl' + 1 := ⟨fl - 1, by omega⟩
      have hF' : parse F c σ0 = .ok v σ' := by
        rw [parse_mono hF (by simp [h])]
        exact h
      simp only [manyLoop, hF']
      rw [if_neg (by simp [JSVal.is_not_null, hv])]
      cases hres : σ'.reset σ0.current_index with
      | ok σR => simp [hres]
      | error e => simp [hres]
  | @step σ0 σ1 σL0 σF0 v vs' f h hv tail ih =>
      obtain ⟨F0, hIH⟩ := ih
      refine ⟨max f F0, fun F fl acc hF hfl => ?_⟩
      obtain ⟨fl', rfl⟩ : ∃ fl', fl = fl' + 1 := ⟨fl - 1, by omega⟩
      have hF' : parse F c σ0 = .ok v σ1 := by
        rw [parse_mono (le_trans (le_max_left f F0) hF) (by simp [h])]
        exact h
      simp only [manyLoop, hF', if_pos hv]
      rw [hIH F fl' (acc ++ [v]) (le_trans (le_max_right f F0) hF)
        (by simpa using hfl)]
      cases hres : σF0.reset σL0.current_index with
      | ok σR => simp [hres]
      | error e => simp [hres]

theorem many_of_trace {c : Parser} {σ : IndexableContext} {vs : List JSVal}
    {σL σF : IndexableContext} (ht : ManyTrace c σ vs σL σF) :
    ∃ F, parse (F + 1) (.many c) σ = manyOutcome vs σL σF := by
  cases ht with
  | @fail _ σ' v f h hv =>
      refine ⟨f, ?_⟩
      show parseStep (parse f) f (.many c) σ = _
      simp only [parseStep, h]
      rw [if_neg (by simp [JSVal.is_not_null, hv])]
      rfl
  | @step _ σ1 _ _ v vs' f h hv tail =>
      obtain ⟨F0, hIH⟩ := manyLoop_of_trace tail
      refine ⟨max f (max F0 (vs'.length + 1)), ?_⟩
      show parseStep (parse (max f (max F0 (vs'.length + 1))))
        (max f (max F0 (vs'.length + 1))) (.many c) σ = _
      have hF' : parse (max f (max F0 (vs'.length + 1))) c σ = .ok v σ1 := by
        rw [parse_mono (le_max_left _ _) (by simp [h])]
        exact h
      simp only [parseStep, hF', if_pos hv]
      rw [hIH _ _ [v] (le_trans (le_max_left F0 _) (le_max_right f _))
        (lt_of_lt_of_le (Nat.lt_succ_self _) (le_trans (le_max_right F0 _) (le_max_right f _)))]
      cases hres : σF.reset σL.current_index with
      | ok σR => simp [manyOutcome, hres]
      | error e => simp [manyOutcome, hres]

/-! ### A bound every context carries with it -/

theorem bucketBounded_mono {B B' : Nat} {b : Bucket} (h : B ≤ B')
    (hb : bucketBounded B b) : bucketBounded B' b :=
  fun i v e hm => le_trans (hb i v e hm) h

theorem bucketBounded_bucketMax (b : Bucket) : bucketBounded (bucketMax b) b := by
  induction b with
  | nil => exact bucketBounded_nil
  | cons p b ih =>
      obtain ⟨i, v, e⟩ := p
      intro i' v' e' hm
      rcases List.mem_cons.mp hm with hh | hh
      · injection hh with h1 h2
        injection h2 with h3 h4
        subst h4
        exact le_max_left _ _
      · exact le_trans (ih i' v' e' hh) (le_max_right _ _)

theorem cacheBounded_cacheMax (c : Cache) : cacheBounded (cacheMax c) c := by
  induction c with
  | nil => intro k b hm; exact absurd hm (List.not_mem_nil _)
  | cons p c ih =>
      obtain ⟨k0, b0⟩ := p
      intro k b hm
      rcases List.mem_cons.mp hm with hh | hh
      · injection hh with h1 h2
        subst h2
        exact bucketBounded_mono (le_max_left _ _) (bucketBounded_bucketMax b)
      · exact bucketBounded_mono (le_max_right _ _) (ih k b hh)

theorem bounded_ctxBound (ctx : IndexableContext) : Bounded (ctxBound ctx) ctx :=
  ⟨le_trans (le_max_left _ _) (le_max_left _ _),
    le_trans (le_max_right _ _) (le_max_left _ _),
    fun k b hm => bucketBounded_mono (le_max_right _ _)
      (cacheBounded_cacheMax ctx.cache k b hm)⟩

/-- If every invocation of the child from this input terminates with an
ordinary result, and every success strictly advances the cursor, then the
child's successive invocations form a finite trace: positions strictly
increase but stay bounded. -/
theorem manyTrace_exists :
    ∀ (n : Nat) (c : Parser) (ctx : IndexableContext) (B : Nat),
      B + 1 - ctx.current_index ≤ n → Sync ctx → Bounded B ctx →
      (∀ σ, σ.input = ctx.input → ∃ f v σ', parse f c σ = .ok v σ') →
      (∀ σ f v σ', σ.input = ctx.input → parse f c σ = .ok v σ' →
          v.is_not_null = true → σ.current_index < σ'.current_index) →
      ∃ vs σL σF, ManyTrace c ctx vs σL σF := by
  intro n
  induction n with
  | zero =>
      intro c ctx B hn hsync hB hterm hprog
      exact absurd hn (by have := hB.1; omega)
  | succ n ih =>
      intro c ctx B hn hsync hB hterm hprog
      obtain ⟨f, v, σ', hf⟩ := hterm ctx rfl
      by_cases hnn : v.is_not_null = true
      · have hlt := hprog ctx f v σ' rfl hf hnn
        have hpres := parse_pres f c ctx v σ' hf
        have hin : σ'.input = ctx.input := hpres.1
        have hsync' : Sync σ' := hpres.2.1 hsync
        have hB' : Bounded B σ' := hpres.2.2.2 hsync B hB
        obtain ⟨vs, σL, σF, tail⟩ := ih c σ' B (by have := hB'.1; omega) hsync' hB'
          (fun σ hσ => hterm σ (hσ.trans hin))
          (fun σ f' v' σ'' hσ h' hv' => hprog σ f' v' σ'' (hσ.trans hin) h' hv')
        exact ⟨v :: vs, σL, σF, ManyTrace.step f hf hnn tail⟩
      · exact ⟨[], ctx, σ', ManyTrace.fail f hf (is_null_of_not_is_not_null hnn)⟩

/-! ### A zero-width-succeeding child makes `many` diverge -/

theorem optNone_ok (k : Nat) :
    parse (k + 2) (.optionalP (.basic matchNone)) (IndexableContext.mk0 []) =
      .ok (.arr []) (IndexableContext.mk0 []) := rfl

theorem manyLoop_optNone :
    ∀ (fl : Nat) (k : Nat) (acc : List JSVal),
      manyLoop (parse (k + 2)) (.optionalP (.basic matchNone)) fl acc 0
        (IndexableContext.mk0 []) = .timeout := by
  intro fl
  induction fl with
  | zero => intro k acc; rfl
  | succ fl ih =>
      intro k acc
      simp only [manyLoop, optNone_ok k]
      rw [if_pos (by rfl)]
      exact ih k (acc ++ [.arr []])

theorem many_zero_width_diverges :
    ∀ f, parse f (.many (.optionalP (.basic matchNone))) (IndexableContext.mk0 []) =
      .timeout := by
  intro f
  match f with
  | 0 => rfl
  | 1 => rfl
  | 2 => rfl
  | (k + 3) =>
      show parseStep (parse (k + 2)) (k + 2) _ _ = _
      simp only [parseStep, optNone_ok k]
      rw [if_pos (by rfl)]
      exact manyLoop_optNone (k + 2) k [.arr []]

/-- C10 counterexample: the claim as stated is false.  Take the child
`Match(a).cut("r") then Match(b)`: every successful invocation strictly
advances the cursor (by two), yet on input `"aba"` `ManyParser.parse` does
not return the accumulated list — the failed second attempt places a cut at
3, so the loop's final reset to position 2 aborts with the fatal
commitment violation (for every fuel, the run is never a normal return). -/
theorem many_strict_progress_refuted :
    ¬ (∀ c : Parser,
        (∀ (σ : IndexableContext) (f : Nat) (v : JSVal) (σ' : IndexableContext),
            parse f c σ = .ok v σ' → v.is_not_null = true →
            σ.current_index < σ'.current_index) →
        ∀ input : List JSVal, ∃ F v σ,
          parse F (.many c) (IndexableContext.mk0 input) = .ok v σ) := by
  intro hclaim
  obtain ⟨F, v, σ, hF⟩ :=
    hclaim (.sequence [.cutP (.basic matchA) "r", .basic matchB])
      cutSeqStrictProgress [.str "a", .str "b", .str "a"]
  have h10 : parse 10 (.many (.sequence [.cutP (.basic matchA) "r", .basic matchB]))
      (IndexableContext.mk0 [.str "a", .str "b", .str "a"]) =
      .fatal ⟨3, some "r", 2⟩ := rfl
  have h1 : parse (max F 10)
      (.many (.sequence [.cutP (.basic matchA) "r", .basic matchB]))
      (IndexableContext.mk0 [.str "a", .str "b", .str "a"]) = .ok v σ :=
    (parse_mono (le_max_left F 10) (by simp [hF])).trans hF
  have h2 : parse (max F 10)
      (.many (.sequence [.cutP (.basic matchA) "r", .basic matchB]))
      (IndexableContext.mk0 [.str "a", .str "b", .str "a"]) =
      .fatal ⟨3, some "r", 2⟩ :=
    (parse_mono (le_max_right F 10) (by simp [h10])).trans h10
  rw [h1] at h2
  exact absurd h2 (by simp)

/-- C10 (amended): one-or-more repetition terminates when every invocation
of the child terminates with an ordinary result and every success strictly
advances the cursor (as Match primitives do).  The run realizes a finite
trace of successive child results; `ManyParser.parse` returns failure if
the first attempt failed, and otherwise the accumulated list with the
cursor reset to the position immediately after the last success — that
reset aborting with the fatal commitment violation instead if the failed
final attempt placed a cut beyond it.  Termination is not guaranteed when
the child can succeed without consuming: with the zero-width-succeeding
child `Match(x).optional()` the repetition runs forever (exhausts every
fuel). -/
theorem many_terminates_under_strict_progress (c : Parser) (ctx : IndexableContext)
    (hsync : Sync ctx)
    (hterm : ∀ σ, σ.input = ctx.input → ∃ f v σ', parse f c σ = .ok v σ')
    (hprog : ∀ σ f v σ', σ.input = ctx.input → parse f c σ = .ok v σ' →
        v.is_not_null = true → σ.current_index < σ'.current_index) :
    (∃ F vs σL σF, ManyTrace c ctx vs σL σF ∧
        parse (F + 1) (.many c) ctx = manyOutcome vs σL σF) ∧
    (∀ f, parse f (.many (.optionalP (.basic matchNone))) (IndexableContext.mk0 []) =
        .timeout) := by
  constructor
  · obtain ⟨vs, σL, σF, ht⟩ := manyTrace_exists
      (ctxBound ctx + 1 - ctx.current_index) c ctx (ctxBound ctx) (le_refl _)
      hsync (bounded_ctxBound ctx) hterm hprog
    obtain ⟨F, hF⟩ := many_of_trace ht
    exact ⟨F, vs, σL, σF, ht, hF⟩
  · exact many_zero_width_diverges

theorem basic_always_terminates (m : JSVal → Bool) :
    ∀ σ : IndexableContext, ∃ f v σ', parse f (.basic m) σ = .ok v σ' := by
  intro σ
  by_cases hc : (σ.current_element.is_not_null && m σ.current_element) = true
  · exact ⟨1, σ.current_element, σ.advance, by
      show parseStep (parse 0) 0 _ _ = _
      simp only [parseStep, if_pos hc]⟩
  · exact ⟨1, .null, σ, by
      show parseStep (parse 0) 0 _ _ = _
      simp only [parseStep, if_neg hc]⟩

theorem basic_strict_progress (m : JSVal → Bool) :
    ∀ (σ : IndexableContext) (f : Nat) (v : JSVal) (σ' : IndexableContext),
      parse f (.basic m) σ = .ok v σ' → v.is_not_null = true →
      σ.current_index < σ'.current_index := by
  intro σ f v σ' h hv
  rcases basic_ok_inv h with ⟨_, rfl, _⟩ | ⟨rfl, _⟩
  · exact Nat.lt_succ_self _
  · exact absurd hv (by decide)

theorem many_terminates_under_strict_progress_witness :
    ((∃ F vs σL σF,
        ManyTrace (.basic matchA) (IndexableContext.mk0 [.str "a", .str "a"]) vs σL σF ∧
        parse (F + 1) (.many (.basic matchA)) (IndexableContext.mk0 [.str "a", .str "a"]) =
          manyOutcome vs σL σF) ∧
      (∀ f, parse f (.many (.optionalP (.basic matchNone))) (IndexableContext.mk0 []) =
          .timeout)) ∧
    (parse 20 (.many (.basic matchA)) (IndexableContext.mk0 [.str "a", .str "a"])).result? =
      some (.arr [.str "a", .str "a"]) :=
  ⟨many_terminates_under_strict_progress (.basic matchA)
      (IndexableContext.mk0 [.str "a", .str "a"]) rfl
      (fun σ _ => basic_always_terminates matchA σ)
      (fun σ f v σ' _ h hv => basic_strict_progress matchA σ f v σ' h hv),
    rfl⟩
